import Mathlib

/-!
# ngs-tools: k-mer rolling hash and MinHash sketch

A shallow embedding of `tools/tax/tax_tree/hash.h` (`struct Hash`), of the
`MinHash` sketch and the profile driver of `tools/tax/src/get_profile.cpp`,
and of the fragment-id comparator and the score option of
`tools/sra-search/main.cpp`.

Conventions of the embedding:

* `hash_t` is `uint64_t`: a natural number below `2 ^ 64`; a left shift is
  reduced modulo `2 ^ 64`.
* a `char` is the natural number of its byte; only bits 1 and 2 of it are
  ever read, so signedness plays no role.
* a `std::string` / `const char *` is the list of its bytes; reading the
  position one past the end yields the terminating `0`.
* loop counters (`int`, `size_t`) are unbounded naturals.
* functions of the C and C++ standard libraries and of headers that are not
  among the sources (`std::mt19937`, `strtol`, `strtoi32`,
  `seq_transform<hash_t>::min_hash_variant`) are parameters.
-/


namespace NgsTools

/-! ## hash.h -/

namespace Hash

/-- Models `Hash::update_hash(char ch, hash_t hash)`. -/
def update_hash (ch : Nat) (hash : Nat) : Nat :=
  let hash := (hash <<< 2) % 2 ^ 64
  let new_bit1 := (ch &&& 2) >>> 1
  let new_bit2 := (ch &&& 4) >>> 2
  hash ||| (new_bit1 ||| (new_bit2 <<< 1))

/-- Models `Hash::hash_of(const char *s, int kmer_len)`: the loop
`for (i = 0; i < kmer_len; i++) hash = update_hash(s[i], hash)`. -/
def hash_of (s : List Nat) (kmer_len : Nat) : Nat :=
  (List.range kmer_len).foldl (fun hash i => update_hash (s.getD i 0) hash) 0

/-- Models `Hash::hash_next(char ch, hash_t hash, int kmer_len)`. The shift count
`kmer_len*2 - 2` is below 64 exactly when `kmer_len ≤ 32`. -/
def hash_next (ch : Nat) (hash : Nat) (kmer_len : Nat) : Nat :=
  let hash := hash &&& ((1 <<< (kmer_len * 2 - 2)) % 2 ^ 64 - 1)
  update_hash ch hash

/-- Models `Hash::hash_next(const char *s, hash_t hash, int kmer_len)`: the
overload reading the character `s[kmer_len - 1]`. -/
def hash_next_str (s : List Nat) (hash : Nat) (kmer_len : Nat) : Nat :=
  hash_next (s.getD (kmer_len - 1) 0) hash kmer_len

/-- Models `Hash::hash_char(hash_t hash)`. -/
def hash_char (hash : Nat) : Nat :=
  match hash with
  | 0 => 'A'.toNat
  | 1 => 'C'.toNat
  | 2 => 'T'.toNat
  | 3 => 'G'.toNat
  | _ => 'N'.toNat

/-- Loop of `str_from_hash`:
`for (i = 0; i < kmer_len; i++, hash >>= 2) s += hash_char(hash & 3)`;
the first argument counts the remaining iterations. -/
def str_from_hash_loop : Nat → Nat → List Nat → List Nat
  | 0, _, s => s
  | n + 1, hash, s => str_from_hash_loop n (hash >>> 2) (s ++ [hash_char (hash &&& 3)])

/-- Models `Hash::str_from_hash(hash_t hash, int kmer_len)`. -/
def str_from_hash (hash : Nat) (kmer_len : Nat) : List Nat :=
  (str_from_hash_loop kmer_len hash []).reverse

/-- Loop of `for_all_hashes_do`:
`for (i = 0; i <= s.size() - kmer_len; i++, hash = hash_next(&s[i], hash, kmer_len))
   if (!lambda(hash)) break;`
The callback is a state transformer returning the new state and the
boolean it returns in C++. The first argument is fuel; the loop stops by
its own condition before the fuel given by `for_all_hashes_do` runs out
(see `for_all_hashes_do_loop_fuel`). -/
def for_all_hashes_do_loop {σ : Type} (s : List Nat) (kmer_len : Nat)
    (lambda : σ → Nat → σ × Bool) : Nat → Nat → Nat → σ → σ
  | 0, _, _, st => st
  | fuel + 1, i, hash, st =>
    if i ≤ s.length - kmer_len then
      let r := lambda st hash
      if !r.2 then r.1
      else for_all_hashes_do_loop s kmer_len lambda fuel (i + 1)
        (hash_next_str (s.drop (i + 1)) hash kmer_len) r.1
    else st

/-- Models `Hash::for_all_hashes_do(const std::string &s, int kmer_len, Lambda &&lambda)`. -/
def for_all_hashes_do {σ : Type} (s : List Nat) (kmer_len : Nat)
    (lambda : σ → Nat → σ × Bool) (st : σ) : σ :=
  if s.length < kmer_len then st
  else for_all_hashes_do_loop s kmer_len lambda (s.length + 1) 0 (hash_of s kmer_len) st

/-- The callback `lambda` instrumented to also record, in order, every
value it is called with. -/
def recording {σ : Type} (lambda : σ → Nat → σ × Bool) :
    σ × List Nat → Nat → (σ × List Nat) × Bool :=
  fun st hash => (((lambda st.1 hash).1, st.2 ++ [hash]), (lambda st.1 hash).2)

/-- The values `for_all_hashes_do` passes to `lambda`, in call order. -/
def callback_values {σ : Type} (s : List Nat) (kmer_len : Nat)
    (lambda : σ → Nat → σ × Bool) (st : σ) : List Nat :=
  (for_all_hashes_do s kmer_len (recording lambda) (st, [])).2

/-- The bytes of an ASCII string literal. -/
def bytes (s : String) : List Nat := s.toList.map Char.toNat

end Hash

/-! ## get_profile.cpp -/

/-- The constant `UINT64_MAX`. -/
def UINT64_MAX : Nat := 2 ^ 64 - 1

/-- Models `MinHash::Best`: a ranking value and the k-mer that produced it, with
the member initialisers `hash = UINT64_MAX`, `kmer = 0`. -/
structure Best where
  hash : Nat := UINT64_MAX
  kmer : Nat := 0
deriving DecidableEq

instance : Inhabited Best := ⟨{}⟩

/-- Models `struct MinHash`: the slots `best`, the accumulation buffer held as the
two parallel vectors `storage_hash` / `storage_kmer`, and the masks `xors`. -/
structure MinHash where
  best : List Best
  storage_hash : List Nat
  storage_kmer : List Nat
  xors : List Nat
deriving DecidableEq

namespace MinHash

/-- Models `MinHash::MinHash(size_t count)`. The generator `std::mt19937` seeded
with `0` and the distribution belong to the C++ standard library; `draws n`
stands for the value of the `n`-th call `dist(rng)`, the two calls of one
mask being taken left to right. -/
def create (draws : Nat → Nat) (count : Nat) : MinHash :=
  { best := List.replicate count {}
    storage_hash := []
    storage_kmer := []
    xors := (List.range count).map
      (fun i => ((draws (2 * i) <<< 32) % 2 ^ 64) ||| draws (2 * i + 1)) }

/-- Models `MinHash::add(uint64_t hash, hash_t kmer)`. -/
def add (m : MinHash) (hash kmer : Nat) : MinHash :=
  { m with
    storage_hash := m.storage_hash ++ [hash]
    storage_kmer := m.storage_kmer ++ [kmer] }

/-- Models `const int BUCKETS = 4`. -/
def BUCKETS : Nat := 4

/-- The batch loop of `finish`:
`for (to_check_i = 0; to_check_i < storage_limit; to_check_i += BUCKETS)`.
The 128-bit loads read `storage_hash[to_check_i + 0 .. to_check_i + 3]` in
memory order. The first argument is fuel. -/
def finish_batches (storage_hash storage_kmer : List Nat) (_xor storage_limit : Nat) :
    Nat → Nat → List Best → List Best
  | 0, _, best_chosen => best_chosen
  | fuel + 1, to_check_i, best_chosen =>
    if to_check_i < storage_limit then
      let h0 := storage_hash.getD (to_check_i + 0) 0 ^^^ _xor
      let h1 := storage_hash.getD (to_check_i + 1) 0 ^^^ _xor
      let h2 := storage_hash.getD (to_check_i + 2) 0 ^^^ _xor
      let h3 := storage_hash.getD (to_check_i + 3) 0 ^^^ _xor
      let best_chosen :=
        if h0 < (best_chosen.getD 0 default).hash then
          best_chosen.set 0 ⟨h0, storage_kmer.getD (to_check_i + 0) 0⟩
        else best_chosen
      let best_chosen :=
        if h1 < (best_chosen.getD 1 default).hash then
          best_chosen.set 1 ⟨h1, storage_kmer.getD (to_check_i + 1) 0⟩
        else best_chosen
      let best_chosen :=
        if h2 < (best_chosen.getD 2 default).hash then
          best_chosen.set 2 ⟨h2, storage_kmer.getD (to_check_i + 2) 0⟩
        else best_chosen
      let best_chosen :=
        if h3 < (best_chosen.getD 3 default).hash then
          best_chosen.set 3 ⟨h3, storage_kmer.getD (to_check_i + 3) 0⟩
        else best_chosen
      finish_batches storage_hash storage_kmer _xor storage_limit fuel
        (to_check_i + BUCKETS) best_chosen
    else best_chosen

/-- The scalar tail loop of `finish`:
`for (to_check_i = storage_limit; to_check_i < storage_hash.size(); to_check_i++)`.
The first argument is fuel. -/
def finish_tail (storage_hash storage_kmer : List Nat) (_xor : Nat) :
    Nat → Nat → List Best → List Best
  | 0, _, best_chosen => best_chosen
  | fuel + 1, to_check_i, best_chosen =>
    if to_check_i < storage_hash.length then
      let h0 := storage_hash.getD (to_check_i + 0) 0 ^^^ _xor
      let best_chosen :=
        if h0 < (best_chosen.getD 0 default).hash then
          best_chosen.set 0 ⟨h0, storage_kmer.getD (to_check_i + 0) 0⟩
        else best_chosen
      finish_tail storage_hash storage_kmer _xor fuel (to_check_i + 1) best_chosen
    else best_chosen

/-- The body of the `ib` loop of `finish` for one slot: from the slot's
value `best[ib]` and its mask `xors[ib]` to the slot's new value. Both
inner loops run at most `storage_hash.size()` times, which is the fuel
they are given. -/
def finish_slot (storage_hash storage_kmer : List Nat) (_xor : Nat) (best_ib : Best) : Best :=
  let best_chosen := (List.range BUCKETS).foldl (fun bc _ => bc ++ [best_ib]) []
  let storage_limit := (storage_hash.length / BUCKETS) * BUCKETS
  let best_chosen := finish_batches storage_hash storage_kmer _xor storage_limit
    storage_hash.length 0 best_chosen
  let best_chosen := finish_tail storage_hash storage_kmer _xor
    storage_hash.length storage_limit best_chosen
  (List.range BUCKETS).foldl
    (fun best_ib i =>
      if (best_chosen.getD i default).hash < best_ib.hash then best_chosen.getD i default
      else best_ib)
    best_ib

/-- Models `MinHash::finish()`. The iterations of the `ib` loop (run in parallel
under OpenMP) touch disjoint slots; they are taken in index order. -/
def finish (m : MinHash) : MinHash :=
  { m with
    best := (List.range m.best.length).foldl
      (fun best ib =>
        best.set ib (finish_slot m.storage_hash m.storage_kmer (m.xors.getD ib 0)
          (best.getD ib default)))
      m.best
    storage_hash := []
    storage_kmer := [] }

/-- The accumulation buffer as a list of `(fingerprint, k-mer)` pairs. -/
def buffer (m : MinHash) : List (Nat × Nat) := m.storage_hash.zip m.storage_kmer

/-- Accumulate a list of `(fingerprint, k-mer)` pairs by successive `add` calls. -/
def add_all (m : MinHash) (buf : List (Nat × Nat)) : MinHash :=
  buf.foldl (fun m e => m.add e.1 e.2) m

/-- The states the interface can produce: one mask per slot, and the two
storage vectors of equal length. -/
def WF (m : MinHash) : Prop :=
  m.xors.length = m.best.length ∧ m.storage_hash.length = m.storage_kmer.length

instance (m : MinHash) : Decidable m.WF := by unfold WF; infer_instance

/-- Specification (scan-equivalence): the naive sequential scan of one
slot, visiting the buffer entries one at a time in buffer order and
replacing the slot whenever `fingerprint XOR mask` is strictly smaller than
the slot's current ranking value. -/
def naive_scan (buf : List (Nat × Nat)) (mask : Nat) (slot : Best) : Best :=
  buf.foldl (fun slot e => if e.1 ^^^ mask < slot.hash then ⟨e.1 ^^^ mask, e.2⟩ else slot) slot

end MinHash

/-- Models `fnv1_hash(void *key, int n_bytes)` over the bytes `p`. -/
def fnv1_hash (p : List Nat) (n_bytes : Nat) : Nat :=
  (List.range n_bytes).foldl
    (fun h i => ((h * 1099511628211) % 2 ^ 64) ^^^ p.getD i 0) 14695981039346656037

/-- The object representation of a `uint64_t` (little-endian, as on the
x86-64 and AArch64 targets of the tool). -/
def bytes_of_u64 (x : Nat) : List Nat :=
  (List.range 8).map (fun i => (x >>> (8 * i)) % 256)

/-- Models `hash_of(hash_t hash)` of get_profile.cpp: `fnv1_hash(&hash, sizeof(hash))`. -/
def hash_of (hash : Nat) : Nat := fnv1_hash (bytes_of_u64 hash) 8

/-- Models `update_min_hash(MinHash &min_hash, const string &seq, int kmer_len)`.
`seq_transform<hash_t>::min_hash_variant` is declared in `seq_transform.h`
and is a parameter here. -/
def update_min_hash (min_hash_variant : Nat → Nat → Nat) (min_hash : MinHash)
    (seq : List Nat) (kmer_len : Nat) : MinHash :=
  Hash.for_all_hashes_do seq kmer_len
    (fun (min_hash : MinHash) hash =>
      let hash := min_hash_variant hash kmer_len
      (min_hash.add (hash_of hash) hash, true))
    min_hash

namespace MinHash

/-- One call of the sketch interface. -/
inductive Call where
  | add (hash kmer : Nat)
  | finish
deriving DecidableEq

/-- Run a sequence of `add` / `finish` calls on a sketch. -/
def run (m : MinHash) (calls : List Call) : MinHash :=
  calls.foldl
    (fun m c =>
      match c with
      | Call.add hash kmer => m.add hash kmer
      | Call.finish => m.finish)
    m

end MinHash

/-! ## Definitions used to state and prove the properties -/

namespace Hash

/-- The 2-bit code of a character: bits 1 and 2 of its byte. -/
def code (ch : Nat) : Nat := ch / 2 % 4

/-- Base-4 value of a list of characters, first character most significant. -/
def enc (l : List Nat) : Nat := l.foldl (fun h c => 4 * h + code c) 0

/-- The first `k` characters read through a `const char *`. -/
def window (s : List Nat) (k : Nat) : List Nat := (List.range k).map (fun i => s.getD i 0)

/-- A left fold that stops as soon as the callback returns `false`. -/
def run_until {σ : Type} (lambda : σ → Nat → σ × Bool) : List Nat → σ → σ
  | [], st => st
  | h :: hs, st => if !(lambda st h).2 then (lambda st h).1 else run_until lambda hs (lambda st h).1

/-- The direct encodings `hash_of(&s[i], kmer_len)` of all windows of `s`,
for `i = 0 .. |s| - kmer_len`. -/
def windows (s : List Nat) (k : Nat) : List Nat :=
  if s.length < k then [] else (List.range' 0 (s.length - k + 1)).map (fun j => hash_of (s.drop j) k)

end Hash

namespace MinHash

/-- The ranking value of buffer position `j` under mask `x`. -/
def rank_at (sh : List Nat) (x j : Nat) : Nat := sh.getD j 0 ^^^ x

/-- The slot value built from buffer position `j` under mask `x`. -/
def entry_at (sh sk : List Nat) (x j : Nat) : Best := ⟨sh.getD j 0 ^^^ x, sk.getD j 0⟩

/-- Invariant of the lanes `bc` of one slot once the buffer positions in `S`
have been scanned: every lane is the slot's prior value `b`, or a scanned
entry strictly below it; and every scanned entry is matched by some lane. -/
def LanesInv (sh sk : List Nat) (x : Nat) (b : Best) (S : Nat → Prop) (bc : List Best) : Prop :=
  (∀ c ∈ bc, c.hash ≤ b.hash ∧
      (c = b ∨ (c.hash < b.hash ∧ ∃ j, S j ∧ c = entry_at sh sk x j))) ∧
    ∀ j, S j → ∃ c ∈ bc, c.hash ≤ rank_at sh x j

/-- The value `r` is a correct selection for a slot with prior value `b` and mask `x`
over the entries `buf`: its ranking value is below the prior one and below
every entry's, and it is the prior value or an entry strictly below it. -/
def Sel (buf : List (Nat × Nat)) (x : Nat) (b r : Best) : Prop :=
  r.hash ≤ b.hash ∧ (∀ e ∈ buf, r.hash ≤ e.1 ^^^ x) ∧
    (r = b ∨ (r.hash < b.hash ∧ ∃ e ∈ buf, r = ⟨e.1 ^^^ x, e.2⟩))

/-- A sketch with two slots and a five-entry buffer (one batch of four and
a tail entry), used to instantiate the theorems below. -/
def sample : MinHash :=
  { best := [{}, ⟨3, 9⟩]
    storage_hash := [9, 5, 9, 9, 5]
    storage_kmer := [1, 2, 3, 4, 5]
    xors := [0, 6] }

end MinHash

/-! ## get_profile.cpp: saving a profile and driving one file -/

namespace MinHash

/-- Variant of `finish` in which the iterations of the `ib` loop, which
OpenMP distributes over its threads, are taken in the order `order` instead
of index order. -/
def finish_in_order (order : List Nat) (m : MinHash) : MinHash :=
  { m with
    best := order.foldl
      (fun best ib =>
        best.set ib (finish_slot m.storage_hash m.storage_kmer (m.xors.getD ib 0)
          (best.getD ib default)))
      m.best
    storage_hash := []
    storage_kmer := [] }

end MinHash

/-- Models `IO::write(f, value)` of `io.h`, which is not among the sources:
the file is the sequence of the values written to it so far. -/
def io_write (f : List Nat) (value : Nat) : List Nat := f ++ [value]

/-- Models `save(const string &filename, const MinHash &min_hash)`: the
sequence of values written to the profile file. -/
def save (min_hash : MinHash) : List Nat :=
  let f := io_write [] min_hash.best.length
  min_hash.best.foldl (fun f b => io_write f b.kmer) f

/-- The sketch that `get_profile(filename, kmer_len, min_hash_count)` saves.
The list `sequences` holds the strings that `Fasta::get_next_sequence`
yields for the file (`fasta.h` is not among the sources); `order` is the
order in which the parallel loop of `finish` takes the slots. -/
def get_profile_sketch (draws : Nat → Nat) (min_hash_variant : Nat → Nat → Nat)
    (order : List Nat) (sequences : List (List Nat)) (kmer_len min_hash_count : Nat) : MinHash :=
  let min_hash := MinHash.create draws min_hash_count
  let min_hash := sequences.foldl
    (fun min_hash seq => update_min_hash min_hash_variant min_hash seq kmer_len) min_hash
  min_hash.finish_in_order order

/-- Models `get_profile(const string &filename, int kmer_len, int min_hash_count)`:
the values written to the profile file, the slots being finished in the
order `order`. -/
def get_profile_in_order (draws : Nat → Nat) (min_hash_variant : Nat → Nat → Nat)
    (order : List Nat) (sequences : List (List Nat)) (kmer_len min_hash_count : Nat) : List Nat :=
  save (get_profile_sketch draws min_hash_variant order sequences kmer_len min_hash_count)

/-- Models `get_profile` with the slots finished in index order. -/
def get_profile (draws : Nat → Nat) (min_hash_variant : Nat → Nat → Nat)
    (sequences : List (List Nat)) (kmer_len min_hash_count : Nat) : List Nat :=
  get_profile_in_order draws min_hash_variant (List.range min_hash_count) sequences kmer_len
    min_hash_count

/-! ## tools/sra-search/main.cpp -/

namespace SraSearch

/-- Search of `std::string::find`: the first position, counted from `i`, at
which `pat` starts in the remaining characters. -/
def find_from (pat : List Nat) : List Nat → Nat → Option Nat
  | [], i => if pat = [] then some i else none
  | c :: t, i => if (c :: t).take pat.length = pat then some i else find_from pat t (i + 1)

/-- Models `s.find(pat, pos)`; `none` stands for `string::npos`. -/
def find (s pat : List Nat) (pos : Nat) : Option Nat :=
  if s.length < pos then none else find_from pat (s.drop pos) pos

/-- Models `s.substr(pos, len)`. -/
def substr (s : List Nat) (pos len : Nat) : List Nat := (s.drop pos).take len

/-- Models `s.substr(pos)`. -/
def substr_from (s : List Nat) (pos : Nat) : List Nat := s.drop pos

/-- The conversion of a `long` to `uint32_t`. -/
def to_uint32 (x : Int) : Nat := (x % 2 ^ 32).toNat

/-- Models `FragmentId_Less::Parse(p_id, p_acc, p_frag, p_read)`; the result
is `(p_acc, p_frag, p_read)`. The C library function `strtol(str, NULL, 10)`
is the parameter `strtol`; its `long` result is the `int64_t` of `p_read`. -/
def Parse (strtol : List Nat → Int) (p_id : List Nat) : List Nat × Nat × Int :=
  match find p_id (Hash.bytes ".FR") 0 with
  | none => (p_id, 0, 0)
  | some firstDot =>
    let p_acc := substr p_id 0 firstDot
    match find p_id (Hash.bytes ".") (firstDot + 3) with
    | none => (p_acc, to_uint32 (strtol (substr_from p_id (firstDot + 3))), 0)
    | some secondDot =>
      (p_acc, to_uint32 (strtol (substr p_id (firstDot + 3) (secondDot - firstDot - 3))),
        strtol (substr_from p_id (secondDot + 1)))

/-- Models `FragmentId_Less::operator()(p_a, p_b)`. Strings are compared as
`std::string` compares them, lexicographically by byte. -/
def FragmentId_Less (strtol : List Nat → Int) (p_a p_b : List Nat) : Bool :=
  let (accA, fragA, readA) := Parse strtol p_a
  let (accB, fragB, readB) := Parse strtol p_b
  if accA = accB then
    if readA = readB then decide (fragA < fragB)
    else decide (readA < readB)
  else decide (accA < accB)

/-- The exceptions `main` distinguishes. -/
inductive Error where
  | invalid_argument
deriving DecidableEq

/-- The branch of `main` for `-S` / `--score` once its argument `argv[i]` is
there: the value to store in `settings.m_minScorePct`, or the exception
thrown. The library function `strtoi32(argv[i], &endptr, 10)` is the
parameter `strtoi32`; it yields the `int32_t` value, the character
`*endptr` and whether `errno == ERANGE` afterwards. -/
def score_option (strtoi32 : List Nat → Int × Nat × Bool) (argv_i : List Nat) :
    Except Error Nat :=
  let (score, endchar, erange) := strtoi32 argv_i
  if endchar ≠ 0 ∨ score ≤ 0 ∨ erange = true then
    Except.error Error.invalid_argument
  else
    Except.ok (to_uint32 score)

/-- The exit code of `main` when option parsing throws `invalid_argument`. -/
def exit_code_of (e : Error) : Nat :=
  match e with
  | Error.invalid_argument => 1

/-- What `strtoi32(str, &endptr, 10)` yields on a string that starts with
decimal digits of a value below `2^31`: that value, the first character
after the digits (`0` at the end of the string), and `errno` untouched. -/
def strtoi32_digits (str : List Nat) : Int × Nat × Bool :=
  let digits := str.takeWhile (fun c => decide (48 ≤ c ∧ c ≤ 57))
  (Int.ofNat (digits.foldl (fun v c => 10 * v + (c - 48)) 0),
    (str.drop digits.length).headD 0, false)

/-- What `strtol(str, NULL, 10)` yields on a string that is empty or starts
with decimal digits of a value below `2^63`. -/
def strtol_digits (str : List Nat) : Int := (strtoi32_digits str).1

end SraSearch

/-! ## Specifications the code is compared with -/

/-- Specification: the bytes of a 64-bit value, least-significant first. -/
def le_bytes (k : Nat) : List Nat :=
  [k % 256, k / 256 % 256, k / 256 ^ 2 % 256, k / 256 ^ 3 % 256, k / 256 ^ 4 % 256,
    k / 256 ^ 5 % 256, k / 256 ^ 6 % 256, k / 256 ^ 7 % 256]

/-- Specification: 64-bit FNV-1 of a byte sequence, multiply first and then
XOR, from the offset basis `0xcbf29ce484222325` with prime `0x100000001b3`. -/
def fnv1_spec (data : List Nat) : Nat :=
  data.foldl (fun acc b => ((acc * 0x100000001b3) % 2 ^ 64) ^^^ b) 0xcbf29ce484222325

/-- Specification: 64-bit FNV-1a of a byte sequence, XOR first and then
multiply. -/
def fnv1a_spec (data : List Nat) : Nat :=
  data.foldl (fun acc b => ((acc ^^^ b) * 0x100000001b3) % 2 ^ 64) 0xcbf29ce484222325

namespace Hash

/-- Specification of the slide: shift left by 2, mask to `2 * kmer_len` bits,
OR in the new code `(ch >> 1) AND 3`. -/
def slide_spec (ch h k : Nat) : Nat :=
  (((h <<< 2) % 2 ^ 64) &&& (4 ^ k - 1)) ||| ((ch >>> 1) &&& 3)

end Hash

namespace SraSearch

/-- The triple by which `FragmentId_Less` orders an id: accession, then read
number, then fragment number, compared lexicographically. -/
def sort_key (strtol : List Nat → Int) (p_id : List Nat) : List Nat ×ₗ (Int ×ₗ Nat) :=
  toLex ((Parse strtol p_id).1, toLex ((Parse strtol p_id).2.2, (Parse strtol p_id).2.1))

end SraSearch

/-! ## Definitions for early termination and letter case -/

namespace Hash

/-- The state of a callback after it has been run, without stopping, on the
values `ws` in order. -/
def state_after {σ : Type} (lambda : σ → Nat → σ × Bool) (ws : List Nat) (st : σ) : σ :=
  ws.foldl (fun st h => (lambda st h).1) st

/-- The upper-case form of an ASCII character, as `toupper` gives it. -/
def toupper (c : Nat) : Nat := if 97 ≤ c ∧ c ≤ 122 then c - 32 else c

end Hash

/-! ## Lemmas: the rolling hash -/

namespace Hash

theorem testBit_two (i : Nat) : Nat.testBit 2 i = decide (i = 1) := by
  have := @Nat.testBit_two_pow 1 i
  simpa [eq_comm] using this

theorem testBit_four (i : Nat) : Nat.testBit 4 i = decide (i = 2) := by
  have := @Nat.testBit_two_pow 2 i
  simpa [eq_comm] using this

theorem code_bits (ch : Nat) :
    ((ch &&& 2) >>> 1) ||| (((ch &&& 4) >>> 2) <<< 1) = code ch := by
  apply Nat.eq_of_testBit_eq
  intro i
  have e : code ch = (ch >>> 1) % 2 ^ 2 := by
    unfold code
    rw [Nat.shiftRight_eq_div_pow]; norm_num
  rw [e]
  simp only [Nat.testBit_or, Nat.testBit_shiftRight, Nat.testBit_shiftLeft, Nat.testBit_and,
    Nat.testBit_mod_two_pow, testBit_two, testBit_four]
  rcases i with _ | _ | i
  · simp
  · simp
  · simp

theorem code_lt (ch : Nat) : code ch < 4 := Nat.mod_lt _ (by decide)

theorem update_hash_eq (ch hash : Nat) :
    update_hash ch hash = 4 * (hash % 2 ^ 62) + code ch := by
  unfold update_hash
  simp only []
  rw [code_bits]
  have h1 : (hash <<< 2) % 2 ^ 64 = 2 ^ 2 * (hash % 2 ^ 62) := by
    rw [Nat.shiftLeft_eq]; omega
  have hc := code_lt ch
  rw [h1, ← Nat.mul_add_lt_is_or (by omega)]

theorem four_pow_le {a b : Nat} (h : a ≤ b) : 4 ^ a ≤ 4 ^ b :=
  Nat.pow_le_pow_right (by decide) h

theorem four_pow_31 : (4 : Nat) ^ 31 = 2 ^ 62 := by norm_num

theorem hash_next_eq (ch hash k : Nat) (h1 : 1 ≤ k) (h32 : k ≤ 32) :
    hash_next ch hash k = 4 * (hash % 4 ^ (k - 1)) + code ch := by
  unfold hash_next
  simp only []
  have hp : (2 : Nat) ^ (k * 2 - 2) = 4 ^ (k - 1) := by
    have : k * 2 - 2 = 2 * (k - 1) := by omega
    rw [this, pow_mul]; norm_num
  have hle : (4 : Nat) ^ (k - 1) ≤ 2 ^ 62 := by
    rw [← four_pow_31]; exact four_pow_le (by omega)
  have hm : (1 <<< (k * 2 - 2)) % 2 ^ 64 = 2 ^ (k * 2 - 2) := by
    rw [Nat.shiftLeft_eq, one_mul, hp]
    apply Nat.mod_eq_of_lt; omega
  rw [hm, Nat.and_pow_two_sub_one_eq_mod, hp, update_hash_eq]
  have hlt : hash % 4 ^ (k - 1) < 4 ^ (k - 1) := Nat.mod_lt _ (by positivity)
  rw [Nat.mod_eq_of_lt (by omega)]

theorem enc_append (l : List Nat) (c : Nat) : enc (l ++ [c]) = 4 * enc l + code c := by
  simp [enc, List.foldl_append]

theorem enc_lt (l : List Nat) : enc l < 4 ^ l.length := by
  induction l using List.reverseRecOn with
  | nil => simp [enc]
  | append_singleton l c ih =>
    rw [enc_append, List.length_append, List.length_singleton, pow_succ]
    have := code_lt c
    omega

theorem enc_cons (c : Nat) (l : List Nat) : enc (c :: l) = code c * 4 ^ l.length + enc l := by
  induction l using List.reverseRecOn with
  | nil => simp [enc]
  | append_singleton l d ih =>
    rw [← List.cons_append, enc_append, ih, enc_append, List.length_append, List.length_singleton,
      pow_succ]
    ring

theorem foldl_update_hash (l : List Nat) (h : l.length ≤ 32) :
    l.foldl (fun hash c => update_hash c hash) 0 = enc l := by
  induction l using List.reverseRecOn with
  | nil => simp [enc]
  | append_singleton l c ih =>
    rw [List.length_append, List.length_singleton] at h
    rw [List.foldl_append, ih (by omega), enc_append]
    simp only [List.foldl_cons, List.foldl_nil]
    rw [update_hash_eq]
    have h1 := enc_lt l
    have h2 : (4 : Nat) ^ l.length ≤ 2 ^ 62 := by
      rw [← four_pow_31]; exact four_pow_le (by omega)
    rw [Nat.mod_eq_of_lt (by omega)]

theorem hash_of_eq_enc (s : List Nat) (k : Nat) (h : k ≤ 32) :
    hash_of s k = enc (window s k) := by
  unfold hash_of window
  rw [← foldl_update_hash _ (by simpa using h), List.foldl_map]

theorem hash_of_lt (s : List Nat) (k : Nat) (h : k ≤ 32) : hash_of s k < 4 ^ k := by
  rw [hash_of_eq_enc s k h]
  have := enc_lt (window s k)
  simpa [window] using this

theorem window_succ (s : List Nat) (k : Nat) :
    window s (k + 1) = window s k ++ [s.getD k 0] := by
  simp [window, List.range_succ]

theorem getD_drop (s : List Nat) (i j : Nat) : (s.drop i).getD j 0 = s.getD (i + j) 0 := by
  simp [List.getD_eq_getElem?_getD, List.getElem?_drop]

theorem window_length (s : List Nat) (k : Nat) : (window s k).length = k := by
  simp [window]

theorem window_drop_succ (s : List Nat) (i k : Nat) :
    window (s.drop i) (k + 1) = s.getD i 0 :: window (s.drop (i + 1)) k := by
  unfold window
  rw [List.range_succ_eq_map, List.map_cons, List.map_map, getD_drop]
  congr 1
  apply List.map_congr_left
  intro j _
  simp only [Function.comp, getD_drop]
  congr 1
  omega

/-- One slide of the rolling hash turns the encoding of window `i` into the
encoding of window `i + 1`. -/
theorem hash_next_str_slide (s : List Nat) (i k : Nat) (h1 : 1 ≤ k) (h32 : k ≤ 32) :
    hash_next_str (s.drop (i + 1)) (hash_of (s.drop i) k) k = hash_of (s.drop (i + 1)) k := by
  obtain ⟨k, rfl⟩ : ∃ k', k = k' + 1 := ⟨k - 1, by omega⟩
  unfold hash_next_str
  rw [hash_next_eq _ _ _ h1 h32, hash_of_eq_enc _ _ h32, hash_of_eq_enc _ _ h32,
    window_drop_succ, enc_cons, window_succ, enc_append, window_length]
  have := enc_lt (window (s.drop (i + 1)) k)
  rw [window_length] at this
  simp only [Nat.add_sub_cancel]
  rw [Nat.mul_add_mod_of_lt this]

theorem window_self (s : List Nat) : window s s.length = s := by
  induction s with
  | nil => simp [window]
  | cons c t ih =>
    have := window_drop_succ (c :: t) 0 t.length
    simp only [List.drop_zero, List.length_cons] at this ⊢
    rw [this]
    simp [ih]

theorem hash_char_code (c : Nat) (hc : c ∈ bytes "ACGT") : hash_char (code c) = c := by
  simp only [bytes, String.toList, List.map, List.mem_cons] at hc
  simp at hc
  rcases hc with rfl | rfl | rfl | rfl <;> decide

theorem str_from_hash_loop_enc (l : List Nat) (hl : ∀ c ∈ l, c ∈ bytes "ACGT") (acc : List Nat) :
    str_from_hash_loop l.length (enc l) acc = acc ++ l.reverse := by
  induction l using List.reverseRecOn generalizing acc with
  | nil => simp [str_from_hash_loop]
  | append_singleton l c ih =>
    have hc := code_lt c
    rw [List.length_append, List.length_singleton, enc_append]
    simp only [str_from_hash_loop]
    have e3 : (4 * enc l + code c) &&& 3 = code c := by
      have := Nat.and_pow_two_sub_one_eq_mod (4 * enc l + code c) 2
      norm_num at this
      rw [this]; omega
    have e2 : (4 * enc l + code c) >>> 2 = enc l := by
      rw [Nat.shiftRight_eq_div_pow]; omega
    rw [e3, e2, hash_char_code c (hl c (by simp)), ih (fun d hd => hl d (by simp [hd]))]
    simp

theorem loop_eq_run_until {σ : Type} (s : List Nat) (k : Nat) (lambda : σ → Nat → σ × Bool)
    (h1 : 1 ≤ k) (h32 : k ≤ 32) (n : Nat) :
    ∀ (fuel i : Nat) (st : σ), i + n = s.length - k + 1 → n ≤ fuel →
      for_all_hashes_do_loop s k lambda fuel i (hash_of (s.drop i) k) st
        = run_until lambda ((List.range' i n).map (fun j => hash_of (s.drop j) k)) st := by
  induction n with
  | zero =>
    intro fuel i st hi _
    cases fuel with
    | zero => simp [for_all_hashes_do_loop, run_until]
    | succ fuel =>
      have : ¬ i ≤ s.length - k := by omega
      simp [for_all_hashes_do_loop, run_until, this]
  | succ n ih =>
    intro fuel i st hi hf
    obtain ⟨fuel, rfl⟩ : ∃ f, fuel = f + 1 := ⟨fuel - 1, by omega⟩
    have hle : i ≤ s.length - k := by omega
    simp only [for_all_hashes_do_loop, hle, if_true, List.range', List.map_cons, run_until]
    rw [hash_next_str_slide s i k h1 h32, ih fuel (i + 1) _ (by omega) (by omega)]

theorem for_all_hashes_do_eq_run_until {σ : Type} (s : List Nat) (k : Nat)
    (lambda : σ → Nat → σ × Bool) (st : σ) (h1 : 1 ≤ k) (h32 : k ≤ 32) :
    for_all_hashes_do s k lambda st = run_until lambda (windows s k) st := by
  unfold for_all_hashes_do windows
  by_cases h : s.length < k
  · simp [h, run_until]
  · simp only [h, if_false]
    have := loop_eq_run_until s k lambda h1 h32 (s.length - k + 1) (s.length + 1) 0 st
      (by omega) (by omega)
    simpa using this

theorem run_until_recording {σ : Type} (lambda : σ → Nat → σ × Bool) (ws : List Nat) :
    ∀ (st : σ) (tr : List Nat), ∃ m, m ≤ ws.length ∧
      (run_until (recording lambda) ws (st, tr)).2 = tr ++ ws.take m ∧
      ((∀ st h, (lambda st h).2 = true) → m = ws.length) := by
  induction ws with
  | nil => intro st tr; exact ⟨0, by simp [run_until]⟩
  | cons w ws ih =>
    intro st tr
    by_cases hc : (lambda st w).2 = true
    · obtain ⟨m, hm, he, ha⟩ := ih (lambda st w).1 (tr ++ [w])
      refine ⟨m + 1, by simpa using hm, ?_, fun h => by simp [ha h]⟩
      simp [run_until, recording, hc, he]
    · refine ⟨1, by simp, ?_, fun h => absurd (h st w) hc⟩
      simp [run_until, recording, hc]

theorem windows_getElem? (s : List Nat) (k i : Nat) (hk : k ≤ s.length) (hi : i ≤ s.length - k) :
    (windows s k)[i]? = some (hash_of (s.drop i) k) := by
  unfold windows
  have : ¬ s.length < k := by omega
  simp only [this, if_false]
  rw [List.getElem?_map, List.getElem?_range' _ _ (by omega)]
  simp

theorem for_all_hashes_do_loop_fuel {σ : Type} (s : List Nat) (k : Nat)
    (lambda : σ → Nat → σ × Bool) (n : Nat) :
    ∀ (fuel1 fuel2 i hash : Nat) (st : σ), s.length - k + 1 ≤ i + n → n ≤ fuel1 → n ≤ fuel2 →
      for_all_hashes_do_loop s k lambda fuel1 i hash st
        = for_all_hashes_do_loop s k lambda fuel2 i hash st := by
  induction n with
  | zero =>
    intro fuel1 fuel2 i hash st hi _ _
    have : ¬ i ≤ s.length - k := by omega
    cases fuel1 <;> cases fuel2 <;> simp [for_all_hashes_do_loop, this]
  | succ n ih =>
    intro fuel1 fuel2 i hash st hi h1 h2
    obtain ⟨fuel1, rfl⟩ : ∃ f, fuel1 = f + 1 := ⟨fuel1 - 1, by omega⟩
    obtain ⟨fuel2, rfl⟩ : ∃ f, fuel2 = f + 1 := ⟨fuel2 - 1, by omega⟩
    simp only [for_all_hashes_do_loop]
    rw [ih fuel1 fuel2 (i + 1) _ _ (by omega) (by omega) (by omega)]

theorem loop_invariant {σ : Type} (s : List Nat) (k : Nat) (lambda : σ → Nat → σ × Bool)
    (P : Nat → σ → Prop) (hP : ∀ c st h, P c st → P (c + 1) (lambda st h).1)
    (hc : ∀ st h, (lambda st h).2 = true) (n : Nat) :
    ∀ (fuel i hash : Nat) (st : σ) (c : Nat), i + n = s.length - k + 1 → n ≤ fuel → P c st →
      P (c + n) (for_all_hashes_do_loop s k lambda fuel i hash st) := by
  induction n with
  | zero =>
    intro fuel i hash st c hi _ hst
    have : ¬ i ≤ s.length - k := by omega
    cases fuel <;> simpa [for_all_hashes_do_loop, this] using hst
  | succ n ih =>
    intro fuel i hash st c hi hf hst
    obtain ⟨fuel, rfl⟩ : ∃ f, fuel = f + 1 := ⟨fuel - 1, by omega⟩
    have hle : i ≤ s.length - k := by omega
    simp only [for_all_hashes_do_loop, hle, if_true, hc, Bool.not_true, Bool.false_eq_true,
      if_false]
    have := ih fuel (i + 1) (hash_next_str (s.drop (i + 1)) hash k) _ (c + 1) (by omega)
      (by omega) (hP c st hash hst)
    rw [Nat.add_assoc, Nat.add_comm 1 n] at this
    exact this

/-- A callback that never stops the loop is run once for each of the
`|s| - k + 1` windows, and not at all when `|s| < k`. -/
theorem for_all_hashes_do_invariant {σ : Type} (s : List Nat) (k : Nat)
    (lambda : σ → Nat → σ × Bool) (P : Nat → σ → Prop)
    (hP : ∀ c st h, P c st → P (c + 1) (lambda st h).1)
    (hc : ∀ st h, (lambda st h).2 = true) (st : σ) (hst : P 0 st) :
    P (if s.length < k then 0 else s.length - k + 1) (for_all_hashes_do s k lambda st) := by
  unfold for_all_hashes_do
  by_cases h : s.length < k
  · simpa [h] using hst
  · simp only [h, if_false]
    have := loop_invariant s k lambda P hP hc (s.length - k + 1) (s.length + 1) 0
      (hash_of s k) st 0 (by omega) (by omega) hst
    rw [Nat.zero_add] at this
    exact this

theorem callback_values_take {σ : Type} (s : List Nat) (k : Nat)
    (lambda : σ → Nat → σ × Bool) (st : σ) (h1 : 1 ≤ k) (h32 : k ≤ 32) :
    ∃ m, m ≤ (windows s k).length ∧ callback_values s k lambda st = (windows s k).take m ∧
      ((∀ st h, (lambda st h).2 = true) → m = (windows s k).length) := by
  unfold callback_values
  rw [for_all_hashes_do_eq_run_until s k _ _ h1 h32]
  obtain ⟨m, hm, he, ha⟩ := run_until_recording lambda (windows s k) st []
  exact ⟨m, hm, by simpa using he, ha⟩

theorem mem_windows (s : List Nat) (k v : Nat) (hv : v ∈ windows s k) :
    ∃ j, v = hash_of (s.drop j) k := by
  unfold windows at hv
  split at hv
  · exact absurd hv (List.not_mem_nil _)
  · obtain ⟨j, _, rfl⟩ := List.mem_map.1 hv
    exact ⟨j, rfl⟩

theorem hash_next_lt (ch hash k : Nat) (h1 : 1 ≤ k) (h32 : k ≤ 32) :
    hash_next ch hash k < 4 ^ k := by
  rw [hash_next_eq ch hash k h1 h32]
  obtain ⟨k, rfl⟩ : ∃ k', k = k' + 1 := ⟨k - 1, by omega⟩
  have hc := code_lt ch
  have hm : hash % 4 ^ k < 4 ^ k := Nat.mod_lt _ (by positivity)
  simp only [Nat.add_sub_cancel]
  rw [pow_succ]
  omega

theorem testBit_above (v k j : Nat) (hv : v < 4 ^ k) (hj : 2 * k ≤ j) : v.testBit j = false := by
  apply Nat.testBit_lt_two_pow
  have h4 : (4 : Nat) ^ k = 2 ^ (2 * k) := by rw [pow_mul]; norm_num
  have : (2 : Nat) ^ (2 * k) ≤ 2 ^ j := Nat.pow_le_pow_right (by decide) hj
  omega

theorem first_group (c : Nat) (t : List Nat) :
    enc (c :: t) >>> (2 * t.length) = code c := by
  rw [enc_cons, Nat.shiftRight_eq_div_pow, pow_mul]
  have := enc_lt t
  norm_num
  rw [Nat.add_div_of_dvd_right (Dvd.intro_left _ rfl), Nat.mul_div_cancel _ (by positivity),
    Nat.div_eq_of_lt this]
  rfl

/-- Recording the callback's arguments does not change what the callback
does to its own state. -/
theorem recording_loop_fst {σ : Type} (s : List Nat) (k : Nat) (lambda : σ → Nat → σ × Bool)
    (fuel : Nat) :
    ∀ (i hash : Nat) (st : σ) (tr : List Nat),
      (for_all_hashes_do_loop s k (recording lambda) fuel i hash (st, tr)).1
        = for_all_hashes_do_loop s k lambda fuel i hash st := by
  induction fuel with
  | zero => intro i hash st tr; rfl
  | succ fuel ih =>
    intro i hash st tr
    simp only [for_all_hashes_do_loop]
    by_cases hle : i ≤ s.length - k
    · simp only [hle, if_true]
      by_cases hc : (lambda st hash).2 = true
      · simp only [recording, hc, Bool.not_true, Bool.false_eq_true, if_false]
        exact ih _ _ _ _
      · simp [recording, hc]
    · simp [hle]

theorem recording_fst {σ : Type} (s : List Nat) (k : Nat) (lambda : σ → Nat → σ × Bool)
    (st : σ) :
    (for_all_hashes_do s k (recording lambda) (st, [])).1 = for_all_hashes_do s k lambda st := by
  unfold for_all_hashes_do
  split
  · rfl
  · exact recording_loop_fst s k lambda _ _ _ _ _

end Hash

/-! ## Lemmas: finalization of the sketch -/

namespace MinHash

theorem lanes_update (sh sk : List Nat) (x : Nat) (b : Best) (S : Nat → Prop) (bc : List Best)
    (t j : Nat) (ht : t < bc.length) (h : LanesInv sh sk x b S bc) :
    LanesInv sh sk x b (fun i => S i ∨ i = j)
      (if sh.getD j 0 ^^^ x < (bc.getD t default).hash then
        bc.set t ⟨sh.getD j 0 ^^^ x, sk.getD j 0⟩ else bc) := by
  obtain ⟨hc, hcov⟩ := h
  have hget : bc.getD t default = bc[t] := by
    simp [List.getD_eq_getElem?_getD, List.getElem?_eq_getElem ht]
  have hmem : bc[t] ∈ bc := List.getElem_mem ht
  by_cases hlt : sh.getD j 0 ^^^ x < (bc.getD t default).hash
  · simp only [hlt, if_true]
    rw [hget] at hlt
    constructor
    · intro c hcm
      rcases List.mem_or_eq_of_mem_set hcm with hcm | rfl
      · obtain ⟨h1, h2⟩ := hc c hcm
        refine ⟨h1, ?_⟩
        rcases h2 with h2 | ⟨h2, i, hi, he⟩
        · exact Or.inl h2
        · exact Or.inr ⟨h2, i, Or.inl hi, he⟩
      · have := (hc _ hmem).1
        refine ⟨by simp only; omega, Or.inr ⟨by simp only; omega, j, Or.inr rfl, rfl⟩⟩
    · intro i hi
      have hnew : (⟨sh.getD j 0 ^^^ x, sk.getD j 0⟩ : Best) ∈
          bc.set t ⟨sh.getD j 0 ^^^ x, sk.getD j 0⟩ := List.mem_set bc t ht _
      rcases hi with hi | rfl
      · obtain ⟨c, hcm, hle⟩ := hcov i hi
        obtain ⟨u, hu, rfl⟩ := List.mem_iff_getElem.1 hcm
        by_cases hut : t = u
        · subst hut
          exact ⟨_, hnew, by simp only; omega⟩
        · refine ⟨bc[u], ?_, hle⟩
          have hu2 : u < (bc.set t ⟨sh.getD j 0 ^^^ x, sk.getD j 0⟩).length := by simpa using hu
          have : (bc.set t ⟨sh.getD j 0 ^^^ x, sk.getD j 0⟩)[u] = bc[u] :=
            List.getElem_set_ne hut _
          rw [← this]
          exact List.getElem_mem _
      · exact ⟨_, hnew, Nat.le_refl _⟩
  · simp only [hlt, if_false]
    rw [hget] at hlt
    constructor
    · intro c hcm
      obtain ⟨h1, h2⟩ := hc c hcm
      refine ⟨h1, ?_⟩
      rcases h2 with h2 | ⟨h2, i, hi, he⟩
      · exact Or.inl h2
      · exact Or.inr ⟨h2, i, Or.inl hi, he⟩
    · intro i hi
      rcases hi with hi | rfl
      · exact hcov i hi
      · exact ⟨bc[t], hmem, by unfold rank_at; omega⟩

theorem lanes_congr (sh sk : List Nat) (x : Nat) (b : Best) (S T : Nat → Prop) (bc : List Best)
    (hST : ∀ j, S j ↔ T j) (h : LanesInv sh sk x b S bc) : LanesInv sh sk x b T bc := by
  have : S = T := funext fun j => propext (hST j)
  rw [← this]; exact h

theorem length_update (sh sk : List Nat) (x : Nat) (bc : List Best) (t j : Nat) :
    (if sh.getD j 0 ^^^ x < (bc.getD t default).hash then
        bc.set t ⟨sh.getD j 0 ^^^ x, sk.getD j 0⟩ else bc).length = bc.length := by
  split <;> simp

theorem finish_batches_inv (sh sk : List Nat) (x limit : Nat) (b : Best) (m : Nat) :
    ∀ (fuel i : Nat) (bc : List Best), i + 4 * m = limit → m ≤ fuel → bc.length = 4 →
      LanesInv sh sk x b (fun j => j < i) bc →
      LanesInv sh sk x b (fun j => j < limit) (finish_batches sh sk x limit fuel i bc) ∧
        (finish_batches sh sk x limit fuel i bc).length = 4 := by
  induction m with
  | zero =>
    intro fuel i bc hi _ hlen h
    have hi2 : i = limit := by omega
    subst hi2
    cases fuel with
    | zero => exact ⟨h, hlen⟩
    | succ fuel => simpa [finish_batches] using And.intro h hlen
  | succ m ih =>
    intro fuel i bc hi hf hlen h
    obtain ⟨fuel, rfl⟩ : ∃ f, fuel = f + 1 := ⟨fuel - 1, by omega⟩
    have hcond : i < limit := by omega
    have h0 := lanes_update sh sk x b _ bc 0 (i + 0) (by omega) h
    have l0 := length_update sh sk x bc 0 (i + 0)
    have h1 := lanes_update sh sk x b _ _ 1 (i + 1) (l0.symm ▸ (by omega)) h0
    have l1 := (length_update sh sk x _ 1 (i + 1)).trans l0
    have h2 := lanes_update sh sk x b _ _ 2 (i + 2) (l1.symm ▸ (by omega)) h1
    have l2 := (length_update sh sk x _ 2 (i + 2)).trans l1
    have h3 := lanes_update sh sk x b _ _ 3 (i + 3) (l2.symm ▸ (by omega)) h2
    have l3 := (length_update sh sk x _ 3 (i + 3)).trans l2
    have h4 := lanes_congr sh sk x b _ (fun j => j < i + BUCKETS) _
      (fun j => by simp only [BUCKETS]; omega) h3
    have := ih fuel (i + BUCKETS) _ (by simp only [BUCKETS]; omega) (by omega) (l3.trans hlen) h4
    rw [finish_batches]
    simp only [hcond, if_true]
    exact this

theorem finish_tail_inv (sh sk : List Nat) (x : Nat) (b : Best) (m : Nat) :
    ∀ (fuel i : Nat) (bc : List Best), i + m = sh.length → m ≤ fuel → bc.length = 4 →
      LanesInv sh sk x b (fun j => j < i) bc →
      LanesInv sh sk x b (fun j => j < sh.length) (finish_tail sh sk x fuel i bc) ∧
        (finish_tail sh sk x fuel i bc).length = 4 := by
  induction m with
  | zero =>
    intro fuel i bc hi _ hlen h
    have hi2 : i = sh.length := by omega
    cases fuel with
    | zero => exact ⟨hi2 ▸ h, hlen⟩
    | succ fuel =>
      have : ¬ i < sh.length := by omega
      simpa [finish_tail, this] using And.intro (hi2 ▸ h) hlen
  | succ m ih =>
    intro fuel i bc hi hf hlen h
    obtain ⟨fuel, rfl⟩ : ∃ f, fuel = f + 1 := ⟨fuel - 1, by omega⟩
    have hcond : i < sh.length := by omega
    have h0 := lanes_update sh sk x b _ bc 0 (i + 0) (by omega) h
    have l0 := length_update sh sk x bc 0 (i + 0)
    have h4 := lanes_congr sh sk x b _ (fun j => j < i + 1) _ (fun j => by omega) h0
    have := ih fuel (i + 1) _ (by omega) (by omega) (l0.trans hlen) h4
    rw [finish_tail]
    simp only [hcond, if_true]
    exact this

theorem merge_spec (bc : List Best) :
    ∀ b : Best,
      (bc.foldl (fun acc c => if c.hash < acc.hash then c else acc) b).hash ≤ b.hash ∧
      (∀ c ∈ bc, (bc.foldl (fun acc c => if c.hash < acc.hash then c else acc) b).hash ≤ c.hash) ∧
      (bc.foldl (fun acc c => if c.hash < acc.hash then c else acc) b = b ∨
        (bc.foldl (fun acc c => if c.hash < acc.hash then c else acc) b ∈ bc ∧
          (bc.foldl (fun acc c => if c.hash < acc.hash then c else acc) b).hash < b.hash)) := by
  induction bc with
  | nil => intro b; simp
  | cons c t ih =>
    intro b
    simp only [List.foldl_cons]
    obtain ⟨h1, h2, h3⟩ := ih (if c.hash < b.hash then c else b)
    by_cases hc : c.hash < b.hash
    · simp only [hc, if_true] at h1 h2 h3 ⊢
      refine ⟨by omega, ?_, ?_⟩
      · intro d hd
        rcases List.mem_cons.1 hd with rfl | hd
        · exact h1
        · exact h2 d hd
      · rcases h3 with h3 | ⟨h3, h4⟩
        · exact Or.inr ⟨by rw [h3]; exact List.mem_cons_self _ _, by rw [h3]; exact hc⟩
        · exact Or.inr ⟨List.mem_cons_of_mem _ h3, by omega⟩
    · simp only [hc, if_false] at h1 h2 h3 ⊢
      refine ⟨h1, ?_, ?_⟩
      · intro d hd
        rcases List.mem_cons.1 hd with rfl | hd
        · omega
        · exact h2 d hd
      · rcases h3 with h3 | ⟨h3, h4⟩
        · exact Or.inl h3
        · exact Or.inr ⟨List.mem_cons_of_mem _ h3, h4⟩

theorem merge_range (bc : List Best) (hlen : bc.length = 4) (b : Best) :
    (List.range BUCKETS).foldl
        (fun best_ib i =>
          if (bc.getD i default).hash < best_ib.hash then bc.getD i default else best_ib) b
      = bc.foldl (fun acc c => if c.hash < acc.hash then c else acc) b := by
  rcases bc with _ | ⟨c0, _ | ⟨c1, _ | ⟨c2, _ | ⟨c3, _ | ⟨c4, t⟩⟩⟩⟩⟩ <;> simp at hlen
  rfl

/-- What `finish_slot` computes, by buffer position. -/
theorem finish_slot_index (sh sk : List Nat) (x : Nat) (b : Best) :
    (finish_slot sh sk x b).hash ≤ b.hash ∧
    (∀ j, j < sh.length → (finish_slot sh sk x b).hash ≤ rank_at sh x j) ∧
    (finish_slot sh sk x b = b ∨
      ((finish_slot sh sk x b).hash < b.hash ∧
        ∃ j, j < sh.length ∧ finish_slot sh sk x b = entry_at sh sk x j)) := by
  have hinit : (List.range BUCKETS).foldl (fun bc _ => bc ++ [b]) [] = [b, b, b, b] := rfl
  have h0 : LanesInv sh sk x b (fun j => j < 0) [b, b, b, b] := by
    refine ⟨fun c hc => ?_, fun j hj => absurd hj (Nat.not_lt_zero _)⟩
    have : c = b := by simpa using hc
    subst this
    exact ⟨Nat.le_refl _, Or.inl rfl⟩
  have hle : sh.length / BUCKETS * BUCKETS ≤ sh.length := Nat.div_mul_le_self _ _
  obtain ⟨h1, l1⟩ := finish_batches_inv sh sk x (sh.length / BUCKETS * BUCKETS) b
    (sh.length / BUCKETS) sh.length 0 [b, b, b, b]
    (by simp only [BUCKETS]; omega) (Nat.div_le_self _ _) rfl h0
  obtain ⟨h2, l2⟩ := finish_tail_inv sh sk x b (sh.length - sh.length / BUCKETS * BUCKETS)
    sh.length (sh.length / BUCKETS * BUCKETS) _ (by omega) (by omega) l1 h1
  unfold finish_slot
  simp only [hinit]
  rw [merge_range _ l2]
  obtain ⟨m1, m2, m3⟩ := merge_spec
    (finish_tail sh sk x sh.length (sh.length / BUCKETS * BUCKETS)
      (finish_batches sh sk x (sh.length / BUCKETS * BUCKETS) sh.length 0 [b, b, b, b])) b
  refine ⟨m1, ?_, ?_⟩
  · intro j hj
    obtain ⟨c, hc, hcj⟩ := h2.2 j hj
    exact Nat.le_trans (m2 c hc) hcj
  · rcases m3 with m3 | ⟨m3, m4⟩
    · exact Or.inl m3
    · rcases (h2.1 _ m3).2 with h | ⟨_, j, hj, he⟩
      · exact Or.inl h
      · exact Or.inr ⟨m4, j, hj, he⟩

theorem mem_zip_index (sh sk : List Nat) (h : sh.length = sk.length) (e : Nat × Nat) :
    e ∈ sh.zip sk ↔ ∃ j, j < sh.length ∧ e = (sh.getD j 0, sk.getD j 0) := by
  constructor
  · intro he
    obtain ⟨j, hj, rfl⟩ := List.mem_iff_getElem.1 he
    have hj1 : j < sh.length := by simp at hj; omega
    have hj2 : j < sk.length := by omega
    refine ⟨j, hj1, ?_⟩
    simp [List.getD_eq_getElem?_getD, List.getElem?_eq_getElem hj1, List.getElem?_eq_getElem hj2]
  · rintro ⟨j, hj1, rfl⟩
    have hj2 : j < sk.length := by omega
    have hj : j < (sh.zip sk).length := by simp; omega
    have : (sh.zip sk)[j] = (sh.getD j 0, sk.getD j 0) := by
      simp [List.getD_eq_getElem?_getD, List.getElem?_eq_getElem hj1,
        List.getElem?_eq_getElem hj2]
    rw [← this]
    exact List.getElem_mem _

/-- What `finish_slot` computes, over the buffer entries. -/
theorem finish_slot_sel (sh sk : List Nat) (h : sh.length = sk.length) (x : Nat) (b : Best) :
    Sel (sh.zip sk) x b (finish_slot sh sk x b) := by
  obtain ⟨h1, h2, h3⟩ := finish_slot_index sh sk x b
  refine ⟨h1, ?_, ?_⟩
  · intro e he
    obtain ⟨j, hj, rfl⟩ := (mem_zip_index sh sk h e).1 he
    exact h2 j hj
  · rcases h3 with h3 | ⟨h3, j, hj, he⟩
    · exact Or.inl h3
    · exact Or.inr ⟨h3, (sh.getD j 0, sk.getD j 0), (mem_zip_index sh sk h _).2 ⟨j, hj, rfl⟩, he⟩

theorem sel_refl (x : Nat) (b : Best) : Sel [] x b b :=
  ⟨Nat.le_refl _, fun _ he => absurd he (List.not_mem_nil _), Or.inl rfl⟩

theorem sel_trans (A B : List (Nat × Nat)) (x : Nat) (b r1 r2 : Best)
    (h1 : Sel A x b r1) (h2 : Sel B x r1 r2) : Sel (A ++ B) x b r2 := by
  obtain ⟨a1, a2, a3⟩ := h1
  obtain ⟨b1, b2, b3⟩ := h2
  refine ⟨Nat.le_trans b1 a1, ?_, ?_⟩
  · intro e he
    rcases List.mem_append.1 he with he | he
    · exact Nat.le_trans b1 (a2 e he)
    · exact b2 e he
  · rcases b3 with rfl | ⟨hlt, e, he, hr⟩
    · rcases a3 with a3 | ⟨hlt, e, he, hr⟩
      · exact Or.inl a3
      · exact Or.inr ⟨hlt, e, List.mem_append_left _ he, hr⟩
    · exact Or.inr ⟨by omega, e, List.mem_append_right _ he, hr⟩

theorem naive_scan_sel (buf : List (Nat × Nat)) (x : Nat) :
    ∀ b : Best, Sel buf x b (naive_scan buf x b) := by
  induction buf with
  | nil => intro b; exact sel_refl x b
  | cons e t ih =>
    intro b
    have hstep : Sel [e] x b (if e.1 ^^^ x < b.hash then ⟨e.1 ^^^ x, e.2⟩ else b) := by
      by_cases hc : e.1 ^^^ x < b.hash
      · simp only [hc, if_true]
        refine ⟨by simp only; omega, ?_, Or.inr ⟨hc, e, by simp, rfl⟩⟩
        intro d hd
        have : d = e := by simpa using hd
        subst this
        exact Nat.le_refl _
      · simp only [hc, if_false]
        refine ⟨Nat.le_refl _, ?_, Or.inl rfl⟩
        intro d hd
        have : d = e := by simpa using hd
        subst this
        omega
    have := sel_trans [e] t x b _ _ hstep (ih _)
    simpa [naive_scan] using this

theorem sel_hash_unique (A B : List (Nat × Nat)) (x : Nat) (b r r2 : Best)
    (hAB : ∀ e, e ∈ A → e ∈ B) (hBA : ∀ e, e ∈ B → e ∈ A)
    (h1 : Sel A x b r) (h2 : Sel B x b r2) : r.hash = r2.hash := by
  obtain ⟨a1, a2, a3⟩ := h1
  obtain ⟨b1, b2, b3⟩ := h2
  have hle : r.hash ≤ r2.hash := by
    rcases b3 with rfl | ⟨_, e, he, rfl⟩
    · exact a1
    · exact a2 e (hBA e he)
  have hge : r2.hash ≤ r.hash := by
    rcases a3 with rfl | ⟨_, e, he, rfl⟩
    · exact b1
    · exact b2 e (hAB e he)
  omega

theorem sel_unique (A B : List (Nat × Nat)) (x : Nat) (b r r2 : Best)
    (hAB : ∀ e, e ∈ A → e ∈ B) (hBA : ∀ e, e ∈ B → e ∈ A)
    (hf : ∀ e ∈ A, ∀ d ∈ A, e.1 = d.1 → e.2 = d.2)
    (h1 : Sel A x b r) (h2 : Sel B x b r2) : r = r2 := by
  have hh := sel_hash_unique A B x b r r2 hAB hBA h1 h2
  obtain ⟨a1, a2, a3⟩ := h1
  obtain ⟨b1, b2, b3⟩ := h2
  rcases a3 with rfl | ⟨alt, e, he, rfl⟩
  · rcases b3 with rfl | ⟨blt, d, hd, rfl⟩
    · rfl
    · omega
  · rcases b3 with rfl | ⟨blt, d, hd, rfl⟩
    · omega
    · simp only at hh
      have h1 : e.1 = d.1 := Nat.xor_left_injective hh
      have h2 := hf e he d (hBA d hd) h1
      simp only [h1, h2]

theorem foldl_min_spec (l : List Nat) :
    ∀ a : Nat, l.foldl min a ≤ a ∧ (∀ y ∈ l, l.foldl min a ≤ y) ∧
      (l.foldl min a = a ∨ l.foldl min a ∈ l) := by
  induction l with
  | nil => intro a; simp
  | cons y t ih =>
    intro a
    obtain ⟨h1, h2, h3⟩ := ih (min a y)
    simp only [List.foldl_cons, List.mem_cons]
    refine ⟨by omega, ?_, ?_⟩
    · rintro z (rfl | hz)
      · omega
      · exact h2 z hz
    · rcases h3 with h3 | h3
      · rcases Nat.le_total a y with h | h
        · left; rw [h3]; exact Nat.min_eq_left h
        · right; left; rw [h3]; exact Nat.min_eq_right h
      · exact Or.inr (Or.inr h3)

theorem sel_hash_eq_foldl_min (buf : List (Nat × Nat)) (x : Nat) (b r : Best)
    (h : Sel buf x b r) : r.hash = (buf.map (fun e => e.1 ^^^ x)).foldl min b.hash := by
  obtain ⟨a1, a2, a3⟩ := h
  obtain ⟨m1, m2, m3⟩ := foldl_min_spec (buf.map (fun e => e.1 ^^^ x)) b.hash
  have hle : r.hash ≤ (buf.map (fun e => e.1 ^^^ x)).foldl min b.hash := by
    rcases m3 with m3 | m3
    · rw [m3]; exact a1
    · obtain ⟨e, he, hm⟩ := List.mem_map.1 m3
      rw [← hm]; exact a2 e he
  have hge : (buf.map (fun e => e.1 ^^^ x)).foldl min b.hash ≤ r.hash := by
    rcases a3 with rfl | ⟨_, e, he, rfl⟩
    · exact m1
    · exact m2 _ (List.mem_map.2 ⟨e, he, rfl⟩)
  omega

theorem foldl_set_range {α : Type} (d : α) (f : Nat → α → α) (n : Nat) :
    ∀ l : List α, n ≤ l.length →
      ((List.range n).foldl (fun l i => l.set i (f i (l.getD i d))) l).length = l.length ∧
      ∀ i, ((List.range n).foldl (fun l i => l.set i (f i (l.getD i d))) l).getD i d
        = if i < n then f i (l.getD i d) else l.getD i d := by
  induction n with
  | zero => intro l _; simp
  | succ n ih =>
    intro l hn
    obtain ⟨h1, h2⟩ := ih l (by omega)
    rw [List.range_succ, List.foldl_append]
    simp only [List.foldl_cons, List.foldl_nil, List.length_set]
    refine ⟨h1, fun i => ?_⟩
    rw [List.getD_eq_getElem?_getD, List.getElem?_set]
    by_cases hi : n = i
    · subst hi
      have hlt : n < ((List.range n).foldl (fun l i => l.set i (f i (l.getD i d))) l).length := by
        omega
      rw [if_pos rfl, if_pos hlt, Option.getD_some, h2 n, if_neg (Nat.lt_irrefl n),
        if_pos (Nat.lt_succ_self n)]
    · simp only [hi, if_false]
      rw [← List.getD_eq_getElem?_getD, h2]
      by_cases h : i < n
      · simp [h, Nat.lt_succ_of_lt h]
      · have : ¬ i < n + 1 := by omega
        simp [h, this]

theorem finish_best_length (m : MinHash) : m.finish.best.length = m.best.length :=
  (foldl_set_range default
    (fun ib b => finish_slot m.storage_hash m.storage_kmer (m.xors.getD ib 0) b)
    m.best.length m.best (Nat.le_refl _)).1

theorem finish_best_getD (m : MinHash) (i : Nat) (hi : i < m.best.length) :
    m.finish.best.getD i default
      = finish_slot m.storage_hash m.storage_kmer (m.xors.getD i 0) (m.best.getD i default) := by
  have := (foldl_set_range default
    (fun ib b => finish_slot m.storage_hash m.storage_kmer (m.xors.getD ib 0) b)
    m.best.length m.best (Nat.le_refl _)).2 i
  simp only [hi, if_true] at this
  exact this

theorem finish_sel (m : MinHash) (hwf : m.WF) (i : Nat) (hi : i < m.best.length) :
    Sel m.buffer (m.xors.getD i 0) (m.best.getD i default) (m.finish.best.getD i default) := by
  rw [finish_best_getD m i hi]
  exact finish_slot_sel _ _ hwf.2 _ _

theorem add_all_fields (buf : List (Nat × Nat)) :
    ∀ m : MinHash, (m.add_all buf).best = m.best ∧ (m.add_all buf).xors = m.xors ∧
      (m.add_all buf).storage_hash = m.storage_hash ++ buf.map Prod.fst ∧
      (m.add_all buf).storage_kmer = m.storage_kmer ++ buf.map Prod.snd := by
  induction buf with
  | nil => intro m; simp [add_all]
  | cons e t ih =>
    intro m
    obtain ⟨h1, h2, h3, h4⟩ := ih (m.add e.1 e.2)
    simp only [add_all, List.foldl_cons] at h1 h2 h3 h4 ⊢
    rw [h1, h2, h3, h4]
    simp [add]

theorem add_all_wf (m : MinHash) (hwf : m.WF) (buf : List (Nat × Nat)) : (m.add_all buf).WF := by
  obtain ⟨h1, h2, h3, h4⟩ := add_all_fields buf m
  unfold WF at *
  rw [h1, h2, h3, h4]
  simp [hwf.1, hwf.2]

theorem zip_fst_snd (buf : List (Nat × Nat)) :
    (buf.map Prod.fst).zip (buf.map Prod.snd) = buf := by
  induction buf with
  | nil => rfl
  | cons e t ih => simp [ih]

theorem add_all_buffer (m : MinHash) (hwf : m.WF) (buf : List (Nat × Nat)) :
    (m.add_all buf).buffer = m.buffer ++ buf := by
  obtain ⟨_, _, h3, h4⟩ := add_all_fields buf m
  unfold buffer
  rw [h3, h4, List.zip_append hwf.2, zip_fst_snd]

theorem finish_wf (m : MinHash) (hwf : m.WF) : m.finish.WF := by
  refine ⟨?_, rfl⟩
  rw [finish_best_length]
  exact hwf.1

theorem create_fields (draws : Nat → Nat) (count i : Nat) (hi : i < count) :
    (create draws count).best.getD i default = ⟨UINT64_MAX, 0⟩ ∧
    (create draws count).xors.getD i 0
      = ((draws (2 * i) <<< 32) % 2 ^ 64) ||| draws (2 * i + 1) ∧
    (create draws count).best.length = count ∧ (create draws count).WF ∧
    (create draws count).buffer = [] := by
  refine ⟨?_, ?_, ?_, ?_, ?_⟩
  · simp [create, List.getD_eq_getElem?_getD, List.getElem?_replicate, hi]
  · simp [create, List.getD_eq_getElem?_getD, List.getElem?_range, hi]
  · simp [create]
  · simp [create, WF]
  · simp [create, buffer]

theorem create_mask_lt (draws : Nat → Nat) (hd : ∀ n, draws n < 2 ^ 32) (i : Nat) :
    ((draws (2 * i) <<< 32) % 2 ^ 64) ||| draws (2 * i + 1) < 2 ^ 64 := by
  apply Nat.or_lt_two_pow
  · exact Nat.mod_lt _ (by positivity)
  · have := hd (2 * i + 1)
    omega

theorem getD_beyond {α : Type} (l : List α) (d : α) (i : Nat) (hi : l.length ≤ i) :
    l.getD i d = d := by
  simp [List.getD_eq_getElem?_getD, List.getElem?_eq_none hi]

theorem finish_hash_le (m : MinHash) (i : Nat) :
    (m.finish.best.getD i default).hash ≤ (m.best.getD i default).hash := by
  by_cases hi : i < m.best.length
  · rw [finish_best_getD m i hi]
    exact (finish_slot_index _ _ _ _).1
  · rw [getD_beyond _ _ _ (by rw [finish_best_length]; omega), getD_beyond _ _ _ (by omega)]

theorem run_hash_le (calls : List Call) :
    ∀ (m : MinHash) (i : Nat),
      ((run m calls).best.getD i default).hash ≤ (m.best.getD i default).hash := by
  induction calls with
  | nil => intro m i; exact Nat.le_refl _
  | cons c t ih =>
    intro m i
    cases c with
    | add hash kmer => exact ih (m.add hash kmer) i
    | finish => exact Nat.le_trans (ih m.finish i) (finish_hash_le m i)

theorem ext_getD {α : Type} (d : α) (l1 l2 : List α) (hlen : l1.length = l2.length)
    (h : ∀ i, i < l1.length → l1.getD i d = l2.getD i d) : l1 = l2 := by
  apply List.ext_getElem hlen
  intro i h1 h2
  have := h i h1
  simpa [List.getD_eq_getElem?_getD, List.getElem?_eq_getElem h1,
    List.getElem?_eq_getElem h2] using this

/-- The batch loop of `finish` stops by its own condition: any two amounts
of fuel of at least the number of remaining batches give the same result. -/
theorem finish_batches_fuel (sh sk : List Nat) (x limit : Nat) (m : Nat) :
    ∀ (fuel1 fuel2 i : Nat) (bc : List Best), limit ≤ i + 4 * m → m ≤ fuel1 → m ≤ fuel2 →
      finish_batches sh sk x limit fuel1 i bc = finish_batches sh sk x limit fuel2 i bc := by
  induction m with
  | zero =>
    intro fuel1 fuel2 i bc hi _ _
    have : ¬ i < limit := by omega
    cases fuel1 <;> cases fuel2 <;> simp [finish_batches, this]
  | succ m ih =>
    intro fuel1 fuel2 i bc hi h1 h2
    obtain ⟨fuel1, rfl⟩ : ∃ f, fuel1 = f + 1 := ⟨fuel1 - 1, by omega⟩
    obtain ⟨fuel2, rfl⟩ : ∃ f, fuel2 = f + 1 := ⟨fuel2 - 1, by omega⟩
    simp only [finish_batches]
    rw [ih fuel1 fuel2 (i + BUCKETS) _ (by simp only [BUCKETS]; omega) (by omega) (by omega)]

/-- The tail loop of `finish` stops by its own condition. -/
theorem finish_tail_fuel (sh sk : List Nat) (x : Nat) (m : Nat) :
    ∀ (fuel1 fuel2 i : Nat) (bc : List Best), sh.length ≤ i + m → m ≤ fuel1 → m ≤ fuel2 →
      finish_tail sh sk x fuel1 i bc = finish_tail sh sk x fuel2 i bc := by
  induction m with
  | zero =>
    intro fuel1 fuel2 i bc hi _ _
    have : ¬ i < sh.length := by omega
    cases fuel1 <;> cases fuel2 <;> simp [finish_tail, this]
  | succ m ih =>
    intro fuel1 fuel2 i bc hi h1 h2
    obtain ⟨fuel1, rfl⟩ : ∃ f, fuel1 = f + 1 := ⟨fuel1 - 1, by omega⟩
    obtain ⟨fuel2, rfl⟩ : ∃ f, fuel2 = f + 1 := ⟨fuel2 - 1, by omega⟩
    simp only [finish_tail]
    rw [ih fuel1 fuel2 (i + 1) _ (by omega) (by omega) (by omega)]

end MinHash

/-! ## Lemmas: fingerprints, accumulated pairs, frame and saving -/

theorem foldl_range_getD {α : Type} (g : α → Nat → α) (p : List Nat) (a : α) :
    (List.range p.length).foldl (fun h i => g h (p.getD i 0)) a = p.foldl g a := by
  have := Hash.window_self p
  unfold Hash.window at this
  rw [← List.foldl_map (fun i => p.getD i 0) g, this]

theorem bytes_of_u64_eq (k : Nat) : bytes_of_u64 k = le_bytes k := by
  simp [bytes_of_u64, le_bytes, List.range_succ, Nat.shiftRight_eq_div_pow]

theorem le_bytes_length (k : Nat) : (le_bytes k).length = 8 := rfl

theorem hash_of_eq_fnv1_spec (k : Nat) : hash_of k = fnv1_spec (le_bytes k) := by
  unfold hash_of fnv1_hash
  rw [bytes_of_u64_eq]
  have := foldl_range_getD (fun h b => ((h * 1099511628211) % 2 ^ 64) ^^^ b) (le_bytes k)
    14695981039346656037
  rw [le_bytes_length] at this
  exact this

theorem fnv1_spec_lt (k : Nat) : fnv1_spec (le_bytes k) < 2 ^ 64 := by
  simp only [fnv1_spec, le_bytes, List.foldl_cons, List.foldl_nil]
  apply Nat.xor_lt_two_pow
  · exact Nat.mod_lt _ (by positivity)
  · have : k / 256 ^ 7 % 256 < 256 := Nat.mod_lt _ (by decide)
    omega

namespace Hash

theorem run_until_always {σ : Type} (lambda : σ → Nat → σ × Bool)
    (hc : ∀ st h, (lambda st h).2 = true) (ws : List Nat) :
    ∀ st : σ, run_until lambda ws st = ws.foldl (fun st h => (lambda st h).1) st := by
  induction ws with
  | nil => intro st; rfl
  | cons w ws ih =>
    intro st
    simp only [run_until, hc, Bool.not_true, Bool.false_eq_true, if_false, List.foldl_cons]
    exact ih _

theorem windows_eq_range (s : List Nat) (k : Nat) :
    windows s k = (List.range (if s.length < k then 0 else s.length - k + 1)).map
      (fun i => hash_of (s.drop i) k) := by
  unfold windows
  split
  · rfl
  · rw [List.range_eq_range']

theorem slide_spec_eq (ch h k : Nat) (h1 : 1 ≤ k) (h32 : k ≤ 32) :
    slide_spec ch h k = 4 * (h % 4 ^ (k - 1)) + code ch := by
  obtain ⟨k, rfl⟩ : ∃ k', k = k' + 1 := ⟨k - 1, by omega⟩
  unfold slide_spec
  simp only [Nat.add_sub_cancel]
  have h4 : (4 : Nat) ^ (k + 1) = 2 ^ (2 * (k + 1)) := by rw [pow_mul]; norm_num
  have hdvd : (4 : Nat) ^ (k + 1) ∣ 2 ^ 64 := by
    rw [h4]
    exact Nat.pow_dvd_pow 2 (by omega)
  have e1 : ((h <<< 2) % 2 ^ 64) &&& (4 ^ (k + 1) - 1) = 2 ^ 2 * (h % 4 ^ k) := by
    rw [h4, Nat.and_pow_two_sub_one_eq_mod, ← h4, Nat.mod_mod_of_dvd _ hdvd, Nat.shiftLeft_eq]
    have hm := Nat.mul_mod_mul_left 4 h (4 ^ k)
    have hp : (4 : Nat) ^ (k + 1) = 4 * 4 ^ k := by rw [pow_succ, Nat.mul_comm]
    have hh : h * 2 ^ 2 = 4 * h := by omega
    rw [hp, hh, hm]
    norm_num
  have e2 : (ch >>> 1) &&& 3 = code ch := by
    have := Nat.and_pow_two_sub_one_eq_mod (ch >>> 1) 2
    rw [Nat.shiftRight_eq_div_pow] at this
    norm_num at this
    rw [Nat.shiftRight_eq_div_pow]
    norm_num
    exact this
  have hc := code_lt ch
  rw [e1, e2, ← Nat.mul_add_lt_is_or (by omega)]

end Hash

namespace MinHash

theorem add_all_map {α : Type} (f : α → Nat × Nat) (ws : List α) (m : MinHash) :
    ws.foldl (fun mh h => mh.add (f h).1 (f h).2) m = m.add_all (ws.map f) := by
  unfold add_all
  rw [List.foldl_map]

theorem mk_eq (a b : MinHash) (h1 : a.best = b.best) (h2 : a.storage_hash = b.storage_hash)
    (h3 : a.storage_kmer = b.storage_kmer) (h4 : a.xors = b.xors) : a = b := by
  cases a
  cases b
  simp only at h1 h2 h3 h4
  rw [h1, h2, h3, h4]

theorem finish_slot_nil (sk : List Nat) (x : Nat) (b : Best) : finish_slot [] sk x b = b := by
  rcases (finish_slot_index [] sk x b).2.2 with h | ⟨_, j, hj, _⟩
  · exact h
  · exact absurd hj (Nat.not_lt_zero _)

theorem finish_finish (m : MinHash) : m.finish.finish = m.finish := by
  apply mk_eq
  · apply ext_getD default
    · exact finish_best_length _
    · intro i hi
      rw [finish_best_getD _ i (by rw [finish_best_length] at hi; exact hi)]
      exact finish_slot_nil _ _ _
  · rfl
  · rfl
  · rfl

theorem foldl_set_order {α : Type} (d : α) (f : Nat → α → α) (order : List Nat) :
    ∀ l : List α, order.Nodup → (∀ i ∈ order, i < l.length) →
      (order.foldl (fun l i => l.set i (f i (l.getD i d))) l).length = l.length ∧
      ∀ i, (order.foldl (fun l i => l.set i (f i (l.getD i d))) l).getD i d
        = if i ∈ order then f i (l.getD i d) else l.getD i d := by
  induction order with
  | nil => intro l _ _; simp
  | cons a t ih =>
    intro l hnd hlt
    have hnd2 := List.nodup_cons.1 hnd
    have ha : a < l.length := hlt a (List.mem_cons_self _ _)
    obtain ⟨h1, h2⟩ := ih (l.set a (f a (l.getD a d))) hnd2.2
      (fun i hi => by rw [List.length_set]; exact hlt i (List.mem_cons_of_mem _ hi))
    simp only [List.foldl_cons]
    refine ⟨by rw [h1, List.length_set], fun i => ?_⟩
    rw [h2 i]
    have hset : ∀ j, (l.set a (f a (l.getD a d))).getD j d
        = if a = j then f a (l.getD a d) else l.getD j d := by
      intro j
      rw [List.getD_eq_getElem?_getD, List.getElem?_set]
      by_cases haj : a = j
      · rw [if_pos haj, if_pos haj, if_pos ha, Option.getD_some]
      · rw [if_neg haj, if_neg haj, List.getD_eq_getElem?_getD]
    by_cases hit : i ∈ t
    · have hne : a ≠ i := fun h => hnd2.1 (h ▸ hit)
      rw [if_pos hit, if_pos (List.mem_cons_of_mem _ hit), hset i, if_neg hne]
    · rw [if_neg hit, hset i]
      by_cases hai : a = i
      · subst hai
        rw [if_pos rfl, if_pos (List.mem_cons_self _ _)]
      · rw [if_neg hai, if_neg]
        intro hmem
        rcases List.mem_cons.1 hmem with h | h
        · exact hai h.symm
        · exact hit h

/-- The order in which the slots are finished does not matter. -/
theorem finish_in_order_eq (m : MinHash) (order : List Nat)
    (hp : order.Perm (List.range m.best.length)) : m.finish_in_order order = m.finish := by
  have hnd : order.Nodup := hp.nodup_iff.2 (List.nodup_range _)
  have hmem : ∀ i, i ∈ order ↔ i < m.best.length := fun i => by
    rw [hp.mem_iff, List.mem_range]
  obtain ⟨h1, h2⟩ := foldl_set_order default
    (fun ib b => finish_slot m.storage_hash m.storage_kmer (m.xors.getD ib 0) b)
    order m.best hnd (fun i hi => (hmem i).1 hi)
  apply mk_eq
  · apply ext_getD default
    · exact h1.trans (finish_best_length m).symm
    · intro i hi
      have hi2 : i < m.best.length := h1 ▸ hi
      exact (h2 i).trans (by rw [if_pos ((hmem i).2 hi2), finish_best_getD m i hi2])
  · rfl
  · rfl
  · rfl

end MinHash

theorem update_min_hash_windows (min_hash_variant : Nat → Nat → Nat) (min_hash : MinHash)
    (s : List Nat) (k : Nat) (h1 : 1 ≤ k) (h32 : k ≤ 32) :
    update_min_hash min_hash_variant min_hash s k
      = min_hash.add_all ((Hash.windows s k).map
          (fun h => (hash_of (min_hash_variant h k), min_hash_variant h k))) := by
  unfold update_min_hash
  rw [Hash.for_all_hashes_do_eq_run_until s k _ _ h1 h32,
    Hash.run_until_always _ (fun _ _ => rfl)]
  exact MinHash.add_all_map
    (fun h => (hash_of (min_hash_variant h k), min_hash_variant h k)) _ _

theorem update_min_hash_frame (min_hash_variant : Nat → Nat → Nat) (min_hash : MinHash)
    (s : List Nat) (k : Nat) :
    (update_min_hash min_hash_variant min_hash s k).best = min_hash.best ∧
    (update_min_hash min_hash_variant min_hash s k).xors = min_hash.xors := by
  have := Hash.for_all_hashes_do_invariant s k
    (fun (mh : MinHash) hash =>
      (mh.add (hash_of (min_hash_variant hash k)) (min_hash_variant hash k), true))
    (fun _ mh => mh.best = min_hash.best ∧ mh.xors = min_hash.xors)
    (fun c mh h hst => hst) (fun st h => rfl) min_hash ⟨rfl, rfl⟩
  exact this

theorem foldl_update_min_hash_frame (min_hash_variant : Nat → Nat → Nat) (k : Nat)
    (sequences : List (List Nat)) :
    ∀ min_hash : MinHash,
      (sequences.foldl (fun mh seq => update_min_hash min_hash_variant mh seq k) min_hash).best
          = min_hash.best ∧
      (sequences.foldl (fun mh seq => update_min_hash min_hash_variant mh seq k) min_hash).xors
          = min_hash.xors := by
  induction sequences with
  | nil => intro m; exact ⟨rfl, rfl⟩
  | cons s t ih =>
    intro m
    obtain ⟨h1, h2⟩ := ih (update_min_hash min_hash_variant m s k)
    obtain ⟨h3, h4⟩ := update_min_hash_frame min_hash_variant m s k
    exact ⟨h1.trans h3, h2.trans h4⟩

theorem get_profile_in_order_eq (draws : Nat → Nat) (min_hash_variant : Nat → Nat → Nat)
    (order : List Nat) (sequences : List (List Nat)) (k count : Nat)
    (hp : order.Perm (List.range count)) :
    get_profile_sketch draws min_hash_variant order sequences k count
      = get_profile_sketch draws min_hash_variant (List.range count) sequences k count := by
  unfold get_profile_sketch
  simp only []
  have hlen : (sequences.foldl (fun mh seq => update_min_hash min_hash_variant mh seq k)
      (MinHash.create draws count)).best.length = count := by
    rw [(foldl_update_min_hash_frame min_hash_variant k sequences _).1]
    simp [MinHash.create]
  rw [MinHash.finish_in_order_eq _ order (by rw [hlen]; exact hp),
    MinHash.finish_in_order_eq _ (List.range count) (by rw [hlen])]

theorem foldl_io_write (l : List Best) :
    ∀ f : List Nat, l.foldl (fun f b => io_write f b.kmer) f = f ++ l.map Best.kmer := by
  induction l with
  | nil => intro f; simp
  | cons b t ih =>
    intro f
    simp only [List.foldl_cons, List.map_cons]
    rw [ih]
    simp [io_write]

theorem save_eq (m : MinHash) : save m = m.best.length :: m.best.map Best.kmer := by
  unfold save
  simp only []
  rw [foldl_io_write]
  rfl

namespace SraSearch

theorem less_iff_key (strtol : List Nat → Int) (a b : List Nat) :
    FragmentId_Less strtol a b = true ↔ sort_key strtol a < sort_key strtol b := by
  unfold FragmentId_Less sort_key
  rw [Prod.Lex.lt_iff]
  simp only [Prod.Lex.lt_iff]
  rcases Parse strtol a with ⟨accA, fragA, readA⟩
  rcases Parse strtol b with ⟨accB, fragB, readB⟩
  simp only []
  by_cases hacc : accA = accB
  · subst hacc
    by_cases hread : readA = readB
    · subst hread
      simp
    · simp [hread]
  · simp [hacc]

end SraSearch

namespace SraSearch

theorem less_iff_lex (strtol : List Nat → Int) (a b : List Nat) :
    FragmentId_Less strtol a b = true ↔
      (Parse strtol a).1 < (Parse strtol b).1 ∨
        ((Parse strtol a).1 = (Parse strtol b).1 ∧
          ((Parse strtol a).2.2 < (Parse strtol b).2.2 ∨
            ((Parse strtol a).2.2 = (Parse strtol b).2.2 ∧
              (Parse strtol a).2.1 < (Parse strtol b).2.1))) := by
  rw [less_iff_key]
  unfold sort_key
  rw [Prod.Lex.lt_iff]
  simp only [Prod.Lex.lt_iff]

theorem less_false_iff (strtol : List Nat → Int) (a b : List Nat) :
    FragmentId_Less strtol a b = false ↔ ¬ sort_key strtol a < sort_key strtol b := by
  rw [← less_iff_key, Bool.not_eq_true]

theorem incomparable_iff (strtol : List Nat → Int) (a b : List Nat) :
    (FragmentId_Less strtol a b = false ∧ FragmentId_Less strtol b a = false) ↔
      sort_key strtol a = sort_key strtol b := by
  rw [less_false_iff, less_false_iff]
  constructor
  · rintro ⟨h1, h2⟩
    exact le_antisymm (not_lt.1 h2) (not_lt.1 h1)
  · intro h
    rw [h]
    exact ⟨lt_irrefl _, lt_irrefl _⟩

theorem score_option_ok_iff (strtoi32 : List Nat → Int × Nat × Bool) (argv_i : List Nat) :
    (∃ v, score_option strtoi32 argv_i = Except.ok v) ↔
      ((strtoi32 argv_i).2.1 = 0 ∧ 0 < (strtoi32 argv_i).1 ∧ (strtoi32 argv_i).2.2 = false) := by
  unfold score_option
  rcases strtoi32 argv_i with ⟨score, endchar, erange⟩
  simp only []
  by_cases h : endchar ≠ 0 ∨ score ≤ 0 ∨ erange = true
  · rw [if_pos h]
    constructor
    · rintro ⟨v, hv⟩
      exact absurd hv (by simp)
    · rintro ⟨h1, h2, h3⟩
      rcases h with h | h | h
      · exact absurd h1 h
      · omega
      · rw [h3] at h
        exact absurd h (by simp)
  · rw [if_neg h]
    constructor
    · intro _
      refine ⟨?_, ?_, ?_⟩
      · by_contra hc
        exact h (Or.inl hc)
      · by_contra hc
        exact h (Or.inr (Or.inl (by omega)))
      · cases erange
        · rfl
        · exact absurd (Or.inr (Or.inr rfl)) h
    · intro _
      exact ⟨_, rfl⟩

end SraSearch

/-! ## Lemmas: decoding, early termination, slots and masks -/

namespace Hash

theorem code_hash_char (d : Nat) (hd : d < 4) : code (hash_char d) = d := by
  interval_cases d <;> decide

theorem hash_char_mem (d : Nat) (hd : d < 4) : hash_char d ∈ bytes "ACGT" := by
  interval_cases d <;> decide

theorem code_shift (ch : Nat) : (ch >>> 1) &&& 3 = code ch := by
  have := Nat.and_pow_two_sub_one_eq_mod (ch >>> 1) 2
  rw [Nat.shiftRight_eq_div_pow] at this
  norm_num at this
  rw [Nat.shiftRight_eq_div_pow]
  norm_num
  exact this

theorem update_hash_bits (ch h : Nat) :
    update_hash ch h = ((h <<< 2) % 2 ^ 64) ||| ((ch >>> 1) &&& 3) := by
  rw [code_shift]
  unfold update_hash
  simp only []
  rw [code_bits]

/-- Decoding a value below `4^n` yields `n` letters whose encoding is the
value. -/
theorem str_from_hash_loop_dec (n : Nat) :
    ∀ (h : Nat) (acc : List Nat), h < 4 ^ n →
      ∃ l : List Nat, l.length = n ∧ (∀ c ∈ l, c ∈ bytes "ACGT") ∧ enc l = h ∧
        str_from_hash_loop n h acc = acc ++ l.reverse := by
  induction n with
  | zero =>
    intro h acc hh
    exact ⟨[], rfl, fun c hc => absurd hc (List.not_mem_nil _),
      by simp [enc]; omega, by simp [str_from_hash_loop]⟩
  | succ n ih =>
    intro h acc hh
    have e3 : h &&& 3 = h % 4 := by
      have := Nat.and_pow_two_sub_one_eq_mod h 2
      norm_num at this
      exact this
    have e2 : h >>> 2 = h / 4 := by
      rw [Nat.shiftRight_eq_div_pow]
    have hlt : h % 4 < 4 := Nat.mod_lt _ (by decide)
    have hdiv : h / 4 < 4 ^ n := by
      rw [pow_succ] at hh
      omega
    obtain ⟨l, hlen, hmem, henc, hloop⟩ := ih (h / 4) (acc ++ [hash_char (h % 4)]) hdiv
    refine ⟨l ++ [hash_char (h % 4)], by simp [hlen], ?_, ?_, ?_⟩
    · intro c hc
      rcases List.mem_append.1 hc with hc | hc
      · exact hmem c hc
      · have : c = hash_char (h % 4) := by simpa using hc
        rw [this]
        exact hash_char_mem _ hlt
    · rw [enc_append, henc, code_hash_char _ hlt]
      omega
    · simp only [str_from_hash_loop]
      rw [e3, e2, hloop]
      simp

theorem str_from_hash_dec (k h : Nat) (h32 : k ≤ 32) (hh : h < 4 ^ k) :
    (str_from_hash h k).length = k ∧ (∀ c ∈ str_from_hash h k, c ∈ bytes "ACGT") ∧
      hash_of (str_from_hash h k) k = h := by
  obtain ⟨l, hlen, hmem, henc, hloop⟩ := str_from_hash_loop_dec k h [] hh
  have hs : str_from_hash h k = l := by
    unfold str_from_hash
    rw [hloop]
    simp
  rw [hs]
  refine ⟨hlen, hmem, ?_⟩
  rw [hash_of_eq_enc l k h32, ← hlen, window_self, henc]

theorem str_from_hash_enc (k : Nat) (h32 : k ≤ 32) (s : List Nat) (hlen : s.length = k)
    (hs : ∀ c ∈ s, c ∈ bytes "ACGT") :
    hash_of s k < 4 ^ k ∧ str_from_hash (hash_of s k) k = s := by
  refine ⟨hash_of_lt s k h32, ?_⟩
  subst hlen
  rw [hash_of_eq_enc s _ h32, window_self]
  unfold str_from_hash
  rw [str_from_hash_loop_enc s hs []]
  simp

theorem code_toupper (c : Nat) (hc : c ∈ bytes "acgtACGT") :
    code (toupper c) = code c ∧ toupper c ∈ bytes "ACGT" := by
  have : c = 97 ∨ c = 99 ∨ c = 103 ∨ c = 116 ∨ c = 65 ∨ c = 67 ∨ c = 71 ∨ c = 84 := by
    simpa [bytes] using hc
  rcases this with rfl | rfl | rfl | rfl | rfl | rfl | rfl | rfl <;> decide

theorem enc_map_congr (f : Nat → Nat) (l : List Nat) (hf : ∀ c ∈ l, code (f c) = code c) :
    enc (l.map f) = enc l := by
  induction l using List.reverseRecOn with
  | nil => rfl
  | append_singleton l c ih =>
    rw [List.map_append, List.map_singleton, enc_append, enc_append,
      ih (fun d hd => hf d (by simp [hd])), hf c (by simp)]

theorem hash_of_toupper (k : Nat) (h32 : k ≤ 32) (s : List Nat) (hlen : s.length = k)
    (hs : ∀ c ∈ s, c ∈ bytes "acgtACGT") :
    hash_of s k = hash_of (s.map toupper) k ∧
      str_from_hash (hash_of s k) k = s.map toupper := by
  have hmap : hash_of s k = hash_of (s.map toupper) k := by
    subst hlen
    rw [hash_of_eq_enc s _ h32, hash_of_eq_enc (s.map toupper) _ h32, window_self]
    have := window_self (s.map toupper)
    rw [List.length_map] at this
    rw [this, enc_map_congr toupper s (fun c hc => (code_toupper c (hs c hc)).1)]
  refine ⟨hmap, ?_⟩
  rw [hmap]
  refine (str_from_hash_enc k h32 (s.map toupper) (by simpa using hlen) ?_).2
  intro c hc
  obtain ⟨d, hd, rfl⟩ := List.mem_map.1 hc
  exact (code_toupper d (hs d hd)).2

/-- A callback that returns true on the first `j` values of `ws` and false
on the next one is run on exactly the first `j + 1` values. -/
theorem run_until_stops {σ : Type} (lambda : σ → Nat → σ × Bool) (j : Nat) :
    ∀ (ws : List Nat) (st : σ) (tr : List Nat), j < ws.length →
      (∀ i, i < j → (lambda (state_after lambda (ws.take i) st) (ws.getD i 0)).2 = true) →
      (lambda (state_after lambda (ws.take j) st) (ws.getD j 0)).2 = false →
      run_until (recording lambda) ws (st, tr)
        = (state_after lambda (ws.take (j + 1)) st, tr ++ ws.take (j + 1)) := by
  induction j with
  | zero =>
    intro ws st tr hlen _ hstop
    rcases ws with _ | ⟨w, ws⟩
    · exact absurd hlen (Nat.lt_irrefl _)
    · simp only [List.take_zero, state_after, List.foldl_nil, List.getD_cons_zero] at hstop
      simp [run_until, recording, hstop, state_after]
  | succ j ih =>
    intro ws st tr hlen hcont hstop
    rcases ws with _ | ⟨w, ws⟩
    · exact absurd hlen (Nat.not_lt_zero _)
    · have h0 := hcont 0 (Nat.zero_lt_succ _)
      simp only [List.take_zero, state_after, List.foldl_nil, List.getD_cons_zero] at h0
      have := ih ws (lambda st w).1 (tr ++ [w]) (by simpa using hlen)
        (fun i hi => by
          have := hcont (i + 1) (by omega)
          simpa [state_after] using this)
        (by simpa [state_after] using hstop)
      have r2 : (recording lambda (st, tr) w).2 = true := h0
      have r1 : (recording lambda (st, tr) w).1 = ((lambda st w).1, tr ++ [w]) := rfl
      simp only [run_until, r1, r2, Bool.not_true, Bool.false_eq_true, if_false]
      rw [this]
      simp [state_after]

theorem windows_length (s : List Nat) (k : Nat) (hk : k ≤ s.length) :
    (windows s k).length = s.length - k + 1 := by
  rw [windows_eq_range]
  have : ¬ s.length < k := by omega
  simp [this]

theorem windows_take (s : List Nat) (k n : Nat) (hk : k ≤ s.length)
    (hn : n ≤ s.length - k + 1) :
    (windows s k).take n = (List.range n).map (fun i => hash_of (s.drop i) k) := by
  rw [windows_eq_range]
  have : ¬ s.length < k := by omega
  simp only [this, if_false]
  rw [← List.map_take, List.take_range]
  congr 2
  omega

theorem windows_getD (s : List Nat) (k i : Nat) (hk : k ≤ s.length) (hi : i ≤ s.length - k) :
    (windows s k).getD i 0 = hash_of (s.drop i) k := by
  rw [List.getD_eq_getElem?_getD, windows_getElem? s k i hk hi]
  rfl

end Hash

namespace MinHash

theorem getD_take {α : Type} (l : List α) (d : α) (n i : Nat) (hi : i < n) :
    (l.take n).getD i d = l.getD i d := by
  rw [List.getD_eq_getElem?_getD, List.getD_eq_getElem?_getD, List.getElem?_take, if_pos hi]

/-- The new value of slot `i` is a function of the buffer, the slot's mask
and the slot's prior value alone. -/
theorem finish_slot_local (m1 m2 : MinHash) (i : Nat) (hi1 : i < m1.best.length)
    (hi2 : i < m2.best.length) (hb : m1.best.getD i default = m2.best.getD i default)
    (hx : m1.xors.getD i 0 = m2.xors.getD i 0) (hs : m1.storage_hash = m2.storage_hash)
    (hk : m1.storage_kmer = m2.storage_kmer) :
    m1.finish.best.getD i default = m2.finish.best.getD i default := by
  rw [finish_best_getD m1 i hi1, finish_best_getD m2 i hi2, hb, hx, hs, hk]

theorem finish_create_take (draws : Nat → Nat) (n m : Nat) (hnm : n ≤ m)
    (buf : List (Nat × Nat)) :
    (finish (add_all (create draws n) buf)).best
      = ((finish (add_all (create draws m) buf)).best).take n := by
  obtain ⟨a1, a2, a3, a4⟩ := add_all_fields buf (create draws n)
  obtain ⟨b1, b2, b3, b4⟩ := add_all_fields buf (create draws m)
  have ln : (add_all (create draws n) buf).best.length = n := by rw [a1]; simp [create]
  have lm : (add_all (create draws m) buf).best.length = m := by rw [b1]; simp [create]
  apply ext_getD default
  · rw [List.length_take, finish_best_length, finish_best_length, ln, lm]
    omega
  · intro i hi
    rw [finish_best_length, ln] at hi
    rw [getD_take _ _ _ _ hi]
    apply finish_slot_local _ _ i (by rw [ln]; exact hi) (by rw [lm]; omega)
    · rw [a1, b1, (create_fields draws n i hi).1, (create_fields draws m i (by omega)).1]
    · rw [a2, b2, (create_fields draws n i hi).2.1, (create_fields draws m i (by omega)).2.1]
    · rw [a3, b3]
      rfl
    · rw [a4, b4]
      rfl

end MinHash

/-! ## The properties -/

namespace MinHash

/-- C1. After `MinHash::finish` slot `i` holds the true minimum: its ranking
value is the minimum of its prior ranking value and of `fingerprint XOR
xors[i]` over all buffer entries; if no entry ranks strictly below the prior
value the slot is unchanged; otherwise its k-mer is that of a buffer entry
whose `fingerprint XOR xors[i]` is the new ranking value. -/
theorem finish_true_minimum (m : MinHash) (hwf : m.WF) (i : Nat) (hi : i < m.best.length) :
    (m.finish.best.getD i default).hash
        = (m.buffer.map (fun e => e.1 ^^^ m.xors.getD i 0)).foldl min
            (m.best.getD i default).hash ∧
    ((∀ e ∈ m.buffer, ¬ e.1 ^^^ m.xors.getD i 0 < (m.best.getD i default).hash) →
        m.finish.best.getD i default = m.best.getD i default) ∧
    ((∃ e ∈ m.buffer, e.1 ^^^ m.xors.getD i 0 < (m.best.getD i default).hash) →
        ∃ e ∈ m.buffer, e.1 ^^^ m.xors.getD i 0 = (m.finish.best.getD i default).hash ∧
          e.2 = (m.finish.best.getD i default).kmer) := by
  have hsel := finish_sel m hwf i hi
  refine ⟨sel_hash_eq_foldl_min _ _ _ _ hsel, ?_, ?_⟩
  · intro hno
    rcases hsel.2.2 with h | ⟨hlt, e, he, hr⟩
    · exact h
    · exact absurd (by rw [hr] at hlt; exact hlt) (hno e he)
  · rintro ⟨e, he, hlt⟩
    rcases hsel.2.2 with h | ⟨_, d, hd, hr⟩
    · have := hsel.2.1 e he
      rw [h] at this
      omega
    · exact ⟨d, hd, by rw [hr], by rw [hr]⟩

/-- Instance of C1 on `sample`, slot 0: the new ranking value is 5. -/
theorem finish_true_minimum_witness :
    sample.WF ∧ 0 < sample.best.length ∧ (sample.finish.best.getD 0 default).hash = 5 :=
  ⟨by decide, by decide, (finish_true_minimum sample (by decide) 0 (by decide)).1.trans (by decide)⟩

/-- C2, as stated, fails: with entries `(5, 2)` at position 1 and `(5, 5)` at
position 4 the batch scan keeps k-mer 5 (lane 0 is merged first) while the
naive in-order scan keeps k-mer 2. -/
theorem scan_equivalence_counterexample :
    (finish ⟨[{}], [9, 5, 9, 9, 5], [1, 2, 3, 4, 5], [0]⟩).best.getD 0 default = ⟨5, 5⟩ ∧
    naive_scan (buffer ⟨[{}], [9, 5, 9, 9, 5], [1, 2, 3, 4, 5], [0]⟩) 0 {} = ⟨5, 2⟩ ∧
    (finish ⟨[{}], [9, 5, 9, 9, 5], [1, 2, 3, 4, 5], [0]⟩).best.getD 0 default
      ≠ naive_scan (buffer ⟨[{}], [9, 5, 9, 9, 5], [1, 2, 3, 4, 5], [0]⟩) 0 {} := by
  decide

/-- C2, amended. For a buffer of any length the batch-of-4 scan of
`MinHash::finish` leaves in every slot the same ranking value as the naive
sequential scan; and it leaves the same (ranking value, k-mer) pair whenever
buffer entries with equal fingerprints carry equal k-mers. -/
theorem finish_eq_naive_scan (m : MinHash) (hwf : m.WF) (i : Nat) (hi : i < m.best.length) :
    (m.finish.best.getD i default).hash
        = (naive_scan m.buffer (m.xors.getD i 0) (m.best.getD i default)).hash ∧
    ((∀ e ∈ m.buffer, ∀ d ∈ m.buffer, e.1 = d.1 → e.2 = d.2) →
        m.finish.best.getD i default
          = naive_scan m.buffer (m.xors.getD i 0) (m.best.getD i default)) :=
  ⟨sel_hash_unique _ _ _ _ _ _ (fun _ h => h) (fun _ h => h) (finish_sel m hwf i hi)
      (naive_scan_sel _ _ _),
    fun hf => sel_unique _ _ _ _ _ _ (fun _ h => h) (fun _ h => h) hf (finish_sel m hwf i hi)
      (naive_scan_sel _ _ _)⟩

/-- Instance of the amended C2 on `sample`, slot 1. -/
theorem finish_eq_naive_scan_witness :
    sample.WF ∧ 1 < sample.best.length ∧
      (sample.finish.best.getD 1 default).hash
        = (naive_scan sample.buffer (sample.xors.getD 1 0) (sample.best.getD 1 default)).hash :=
  ⟨by decide, by decide, (finish_eq_naive_scan sample (by decide) 1 (by decide)).1⟩

end MinHash

namespace Hash

/-- C3. For `1 ≤ k ≤ 32`, `k ≤ |s|` and `i ≤ |s| - k`, the `i`-th value that
`for_all_hashes_do` passes to its callback, when there is one, is the direct
encoding `hash_of(&s[i], k)`; and there is one when the callback always
returns true. -/
theorem rolling_hash_eq_direct {σ : Type} (s : List Nat) (k : Nat) (h1 : 1 ≤ k) (h32 : k ≤ 32)
    (hk : k ≤ s.length) (i : Nat) (hi : i ≤ s.length - k) (lambda : σ → Nat → σ × Bool)
    (st : σ) :
    (∀ v, (callback_values s k lambda st)[i]? = some v → v = hash_of (s.drop i) k) ∧
    ((∀ st h, (lambda st h).2 = true) →
      (callback_values s k lambda st)[i]? = some (hash_of (s.drop i) k)) := by
  obtain ⟨m, hm, he, ha⟩ := callback_values_take s k lambda st h1 h32
  have hw := windows_getElem? s k i hk hi
  rw [he]
  constructor
  · intro v hv
    rw [List.getElem?_take] at hv
    split at hv
    · rw [hw] at hv
      exact (Option.some.inj hv).symm
    · exact absurd hv (by simp)
  · intro hall
    rw [ha hall, List.take_length]
    exact hw

/-- Instance of C3: the window at position 3 of "ACGTACGTAC" with `k = 4`. -/
theorem rolling_hash_eq_direct_witness :
    (callback_values (bytes "ACGTACGTAC") 4 (fun (n : Nat) _ => (n + 1, true)) 0)[3]?
      = some (hash_of ((bytes "ACGTACGTAC").drop 3) 4) :=
  (rolling_hash_eq_direct (bytes "ACGTACGTAC") 4 (by decide) (by decide) (by decide) 3
    (by decide) (fun (n : Nat) _ => (n + 1, true)) 0).2 (fun _ _ => rfl)

/-- C4. Decode undoes encode: for `k ≤ 32` and every string `s` of length `k`
over `{A, C, G, T}`, `str_from_hash(hash_of(s, k), k) = s`; and the
most-significant 2-bit group of the hash decodes to the first character. -/
theorem str_from_hash_hash_of (k : Nat) (h32 : k ≤ 32) (s : List Nat) (hlen : s.length = k)
    (hs : ∀ c ∈ s, c ∈ bytes "ACGT") :
    str_from_hash (hash_of s k) k = s ∧
    ∀ c t, s = c :: t → hash_char (hash_of s k >>> (2 * (k - 1))) = c := by
  subst hlen
  rw [hash_of_eq_enc s _ h32, window_self]
  constructor
  · unfold str_from_hash
    rw [str_from_hash_loop_enc s hs []]
    simp
  · rintro c t rfl
    simp only [List.length_cons, Nat.add_sub_cancel]
    rw [first_group]
    exact hash_char_code c (hs c (by simp))

/-- Instance of C4 on "GATTACA". -/
theorem str_from_hash_hash_of_witness :
    str_from_hash (hash_of (bytes "GATTACA") 7) 7 = bytes "GATTACA" :=
  (str_from_hash_hash_of 7 (by decide) (bytes "GATTACA") (by decide) (by decide)).1

end Hash

/-- C5. For a sequence of length `L` and `kmer_len = k ≥ 1`, a callback that
always returns true is invoked by `for_all_hashes_do` exactly `L - k + 1`
times when `L ≥ k` and not at all when `L < k`; and `update_min_hash` appends
exactly that many pairs to the sketch buffer: both storage vectors keep
their earlier entries and grow by that many values, each new fingerprint
being `hash_of` of the k-mer stored beside it, and the slots and masks stay
as they are. (The count does not depend on the hash values, so `k` is not
bounded by 32 here.) -/
theorem callback_count {σ : Type} (s : List Nat) (k : Nat) (_h1 : 1 ≤ k)
    (lambda : σ → Nat → σ × Bool) (hc : ∀ st h, (lambda st h).2 = true) (st : σ)
    (min_hash_variant : Nat → Nat → Nat) (min_hash : MinHash) :
    (Hash.callback_values s k lambda st).length
        = (if s.length < k then 0 else s.length - k + 1) ∧
    (update_min_hash min_hash_variant min_hash s k).storage_hash.length
        = min_hash.storage_hash.length + (if s.length < k then 0 else s.length - k + 1) ∧
    (update_min_hash min_hash_variant min_hash s k).storage_kmer.length
        = min_hash.storage_kmer.length + (if s.length < k then 0 else s.length - k + 1) ∧
    ∃ added : List (Nat × Nat),
      added.length = (if s.length < k then 0 else s.length - k + 1) ∧
      (∀ e ∈ added, e.1 = hash_of e.2) ∧
      (update_min_hash min_hash_variant min_hash s k).storage_hash
        = min_hash.storage_hash ++ added.map Prod.fst ∧
      (update_min_hash min_hash_variant min_hash s k).storage_kmer
        = min_hash.storage_kmer ++ added.map Prod.snd ∧
      (update_min_hash min_hash_variant min_hash s k).best = min_hash.best ∧
      (update_min_hash min_hash_variant min_hash s k).xors = min_hash.xors ∧
      update_min_hash min_hash_variant min_hash s k = min_hash.add_all added := by
  have hcount := Hash.for_all_hashes_do_invariant s k (Hash.recording lambda)
    (fun c p => p.2.length = c) (fun c st h hst => by simp [Hash.recording, hst])
    (fun st h => by simp [Hash.recording, hc]) (st, []) rfl
  have hrun := Hash.for_all_hashes_do_invariant s k
    (fun (mh : MinHash) hash =>
      (mh.add (hash_of (min_hash_variant hash k)) (min_hash_variant hash k), true))
    (fun c mh => ∃ added : List (Nat × Nat), added.length = c ∧
      (∀ e ∈ added, e.1 = hash_of e.2) ∧
      mh.storage_hash = min_hash.storage_hash ++ added.map Prod.fst ∧
      mh.storage_kmer = min_hash.storage_kmer ++ added.map Prod.snd ∧
      mh.best = min_hash.best ∧ mh.xors = min_hash.xors ∧ mh = min_hash.add_all added)
    (fun c mh h hst => by
      obtain ⟨added, hlen, hfp, hsh, hsk, hb, hx, hall⟩ := hst
      refine ⟨added ++ [(hash_of (min_hash_variant h k), min_hash_variant h k)],
        by simp [hlen], ?_, ?_, ?_, ?_, ?_, ?_⟩
      · intro e he
        rcases List.mem_append.1 he with he | he
        · exact hfp e he
        · have : e = (hash_of (min_hash_variant h k), min_hash_variant h k) := by
            simpa using he
          rw [this]
      · simp [MinHash.add, hsh]
      · simp [MinHash.add, hsk]
      · simp [MinHash.add, hb]
      · simp [MinHash.add, hx]
      · rw [hall]
        simp [MinHash.add_all, List.foldl_append])
    (fun st h => rfl) min_hash
    ⟨[], rfl, fun e he => absurd he (List.not_mem_nil _), by simp, by simp, rfl, rfl, rfl⟩
  obtain ⟨added, hlen, hfp, hsh, hsk, hb, hx, hall⟩ := hrun
  refine ⟨hcount, ?_, ?_, added, hlen, hfp, hsh, hsk, hb, hx, hall⟩
  · exact (congrArg List.length hsh).trans (by rw [List.length_append, List.length_map, hlen])
  · exact (congrArg List.length hsk).trans (by rw [List.length_append, List.length_map, hlen])

/-- Instance of C5: "ACGTACGTAC" with `k = 4` yields 7 callback invocations,
and 7 entries in each storage vector of a sketch that had none; a sequence
of length 4 yields exactly one. -/
theorem callback_count_witness :
    (Hash.callback_values (Hash.bytes "ACGTACGTAC") 4 (fun (n : Nat) _ => (n + 1, true))
      0).length = 7 ∧
    (update_min_hash (fun h _ => h) (MinHash.create (fun _ => 0) 3)
      (Hash.bytes "ACGTACGTAC") 4).storage_hash.length = 7 ∧
    (update_min_hash (fun h _ => h) (MinHash.create (fun _ => 0) 3)
      (Hash.bytes "ACGTACGTAC") 4).storage_kmer.length = 7 ∧
    (update_min_hash (fun h _ => h) (MinHash.create (fun _ => 0) 3)
      (Hash.bytes "ACGT") 4).storage_kmer = [Hash.hash_of (Hash.bytes "ACGT") 4] :=
  ⟨(callback_count (Hash.bytes "ACGTACGTAC") 4 (by decide) (fun (n : Nat) _ => (n + 1, true))
      (fun _ _ => rfl) 0 (fun h _ => h) (MinHash.create (fun _ => 0) 3)).1,
    (callback_count (Hash.bytes "ACGTACGTAC") 4 (by decide) (fun (n : Nat) _ => (n + 1, true))
      (fun _ _ => rfl) 0 (fun h _ => h) (MinHash.create (fun _ => 0) 3)).2.1,
    by decide, by decide⟩

namespace MinHash

/-- C6, as stated, fails. With mask 0 the single entry `(UINT64_MAX, 7)`
ranks `UINT64_MAX`, which is not strictly below the initial ranking value,
so the slot stays at the sentinel `(UINT64_MAX, 0)`; and whatever the masks
are, some one-entry buffer leaves slot 0 at the sentinel. -/
theorem fresh_sentinel_counterexample :
    (finish (add (create (fun _ => 0) 1) UINT64_MAX 7)).best = [⟨UINT64_MAX, 0⟩] ∧
    ¬ ∃ draws : Nat → Nat, (∀ n, draws n < 2 ^ 32) ∧
      ∀ buf : List (Nat × Nat), buf ≠ [] → (∀ e ∈ buf, e.1 < 2 ^ 64 ∧ e.2 < 2 ^ 64) →
        ∃ e ∈ buf, (finish (add_all (create draws 1) buf)).best.getD 0 default
          = ⟨e.1 ^^^ (create draws 1).xors.getD 0 0, e.2⟩ := by
  refine ⟨by decide, ?_⟩
  rintro ⟨draws, hd, h⟩
  have hx := create_mask_lt draws hd 0
  obtain ⟨hb, hxs, hl, hwf, hbuf⟩ := create_fields draws 1 0 (by decide)
  have hfp : UINT64_MAX ^^^ (create draws 1).xors.getD 0 0 < 2 ^ 64 := by
    rw [hxs]
    exact Nat.xor_lt_two_pow (by decide) hx
  obtain ⟨e, he, hr⟩ := h [(UINT64_MAX ^^^ (create draws 1).xors.getD 0 0, 7)] (by simp)
    (by simpa using hfp)
  have he2 : e = (UINT64_MAX ^^^ (create draws 1).xors.getD 0 0, 7) := by simpa using he
  subst he2
  obtain ⟨f1, _, _, _⟩ := add_all_fields
    [(UINT64_MAX ^^^ (create draws 1).xors.getD 0 0, 7)] (create draws 1)
  have hsel := finish_sel _ (add_all_wf _ hwf
    [(UINT64_MAX ^^^ (create draws 1).xors.getD 0 0, 7)]) 0 (by rw [f1, hl]; decide)
  rw [hr, f1, hb] at hsel
  simp only [Nat.xor_cancel_right] at hsel
  rcases hsel.2.2 with h | ⟨hlt, _⟩
  · exact absurd (congrArg Best.kmer h) (by decide)
  · exact absurd hlt (Nat.lt_irrefl _)

/-- C6, amended. On a freshly constructed sketch fed 64-bit fingerprints,
after `finish` a slot `i` holds the pair `(fingerprint XOR xors[i], k-mer)` of
one of the accumulated entries, with a ranking value below `UINT64_MAX`,
whenever some accumulated entry has `fingerprint XOR xors[i] ≠ UINT64_MAX`;
when every accumulated entry has `fingerprint XOR xors[i] = UINT64_MAX` the
slot stays at the sentinel `(UINT64_MAX, 0)`. -/
theorem fresh_finish_slot (draws : Nat → Nat) (hd : ∀ n, draws n < 2 ^ 32) (count : Nat)
    (buf : List (Nat × Nat)) (hfp : ∀ e ∈ buf, e.1 < 2 ^ 64) (i : Nat) (hi : i < count) :
    ((∃ e ∈ buf, e.1 ^^^ (create draws count).xors.getD i 0 ≠ UINT64_MAX) →
      ∃ e ∈ buf, (finish (add_all (create draws count) buf)).best.getD i default
          = ⟨e.1 ^^^ (create draws count).xors.getD i 0, e.2⟩ ∧
        ((finish (add_all (create draws count) buf)).best.getD i default).hash < UINT64_MAX) ∧
    ((∀ e ∈ buf, e.1 ^^^ (create draws count).xors.getD i 0 = UINT64_MAX) →
      (finish (add_all (create draws count) buf)).best.getD i default = ⟨UINT64_MAX, 0⟩) := by
  have hx := create_mask_lt draws hd i
  obtain ⟨hb, hxs, hl, hwf, hbuf⟩ := create_fields draws count i hi
  obtain ⟨f1, f2, _, _⟩ := add_all_fields buf (create draws count)
  have hsel := finish_sel _ (add_all_wf _ hwf buf) i (by rw [f1, hl]; exact hi)
  rw [add_all_buffer _ hwf, hbuf, List.nil_append, f1, f2, hb] at hsel
  have hrank : ∀ e ∈ buf, e.1 ^^^ (create draws count).xors.getD i 0 ≤ UINT64_MAX := by
    intro e he
    have : e.1 ^^^ (create draws count).xors.getD i 0 < 2 ^ 64 := by
      rw [hxs]
      exact Nat.xor_lt_two_pow (hfp e he) hx
    have hmax : UINT64_MAX = 2 ^ 64 - 1 := rfl
    omega
  constructor
  · rintro ⟨e, he, hne⟩
    have hlt : e.1 ^^^ (create draws count).xors.getD i 0 < UINT64_MAX :=
      Nat.lt_of_le_of_ne (hrank e he) hne
    have hle := hsel.2.1 e he
    rcases hsel.2.2 with h | ⟨hlt2, d, hd2, hr⟩
    · rw [h] at hle
      exact absurd hle (by simp only; omega)
    · exact ⟨d, hd2, hr, hlt2⟩
  · intro hall
    rcases hsel.2.2 with h | ⟨hlt2, d, hd2, hr⟩
    · exact h
    · rw [hr] at hlt2
      simp only at hlt2
      rw [hall d hd2] at hlt2
      exact absurd hlt2 (Nat.lt_irrefl _)

/-- Instance of the amended C6: three slots with masks 0, one entry `(5, 9)`. -/
theorem fresh_finish_slot_witness :
    (finish (add_all (create (fun _ => 0) 3) [(5, 9)])).best.getD 2 default = ⟨5, 9⟩ := by
  obtain ⟨e, he, hr, _⟩ := (fresh_finish_slot (fun _ => 0) (fun _ => (by decide : (0 : Nat) < 2 ^ 32)) 3 [(5, 9)]
    (by decide) 2 (by decide)).1 ⟨(5, 9), by decide, by decide⟩
  have : e = (5, 9) := by simpa using he
  subst this
  exact hr

/-- C7. For every sketch state and buffer contents, the ranking value of
every slot after `MinHash::finish` is at most its value before; and over any
sequence of `add` / `finish` calls no slot's ranking value increases. -/
theorem ranking_value_never_increases (m : MinHash) (i : Nat) :
    (m.finish.best.getD i default).hash ≤ (m.best.getD i default).hash ∧
    ∀ calls : List Call,
      ((run m calls).best.getD i default).hash ≤ (m.best.getD i default).hash :=
  ⟨finish_hash_le m i, fun calls => run_hash_le calls m i⟩

/-- C8. Scan-order independence: two sketch states with the same slots and
masks whose buffers are permutations of one another, entries with equal
fingerprints carrying equal k-mers, are finalized by `MinHash::finish` to the
same state, so to the same (ranking value, k-mer) pair in every slot. -/
theorem finish_perm (m1 m2 : MinHash) (hwf1 : m1.WF) (hwf2 : m2.WF) (hb : m1.best = m2.best)
    (hx : m1.xors = m2.xors) (hp : m1.buffer.Perm m2.buffer)
    (hf : ∀ e ∈ m1.buffer, ∀ d ∈ m1.buffer, e.1 = d.1 → e.2 = d.2) :
    m1.finish = m2.finish := by
  have hbest : m1.finish.best = m2.finish.best := by
    apply ext_getD default
    · rw [finish_best_length, finish_best_length, hb]
    · intro i hi
      rw [finish_best_length] at hi
      have s1 := finish_sel m1 hwf1 i hi
      have s2 := finish_sel m2 hwf2 i (hb ▸ hi)
      rw [← hb, ← hx] at s2
      exact sel_unique _ _ _ _ _ _ (fun e h => hp.mem_iff.1 h) (fun e h => hp.mem_iff.2 h) hf s1 s2
  have hxs : m1.finish.xors = m2.finish.xors := hx
  have h3 : m1.finish.storage_hash = m2.finish.storage_hash := rfl
  have h4 : m1.finish.storage_kmer = m2.finish.storage_kmer := rfl
  cases hm1 : m1.finish
  cases hm2 : m2.finish
  rw [hm1, hm2] at hbest hxs h3 h4
  simp only at hbest hxs h3 h4
  rw [hbest, hxs, h3, h4]

/-- Instance of C8: a five-entry buffer and its reversal. -/
theorem finish_perm_witness :
    finish ⟨[{}, ⟨3, 9⟩], [9, 5, 8, 7, 5], [1, 2, 3, 4, 2], [0, 6]⟩
      = finish ⟨[{}, ⟨3, 9⟩], [5, 7, 8, 5, 9], [2, 4, 3, 2, 1], [0, 6]⟩ :=
  finish_perm ⟨[{}, ⟨3, 9⟩], [9, 5, 8, 7, 5], [1, 2, 3, 4, 2], [0, 6]⟩
    ⟨[{}, ⟨3, 9⟩], [5, 7, 8, 5, 9], [2, 4, 3, 2, 1], [0, 6]⟩
    (by decide) (by decide) rfl rfl (by decide) (by decide)

/-- C9. Incremental finalization: accumulating `A`, calling `finish`,
accumulating `B` and calling `finish` again leaves in every slot the same
ranking value as accumulating `A ++ B` and calling `finish` once. -/
theorem finish_incremental (m : MinHash) (hwf : m.WF) (A B : List (Nat × Nat)) (i : Nat) :
    ((finish (add_all (finish (add_all m A)) B)).best.getD i default).hash
      = ((finish (add_all m (A ++ B))).best.getD i default).hash := by
  obtain ⟨a1, a2, _, _⟩ := add_all_fields A m
  obtain ⟨b1, b2, _, _⟩ := add_all_fields B (finish (add_all m A))
  obtain ⟨c1, c2, _, _⟩ := add_all_fields (A ++ B) m
  have wA := add_all_wf m hwf A
  have wF := finish_wf _ wA
  have wB := add_all_wf _ wF B
  have wAB := add_all_wf m hwf (A ++ B)
  by_cases hi : i < m.best.length
  · have hiA : i < (add_all m A).best.length := by rw [a1]; exact hi
    have s1 := finish_sel _ wA i hiA
    have s2 := finish_sel _ wB i (by rw [b1, finish_best_length]; exact hiA)
    have s3 := finish_sel _ wAB i (by rw [c1]; exact hi)
    rw [add_all_buffer _ wF, b1, b2] at s2
    have hnil : (finish (add_all m A)).buffer = [] := rfl
    have hxs : (finish (add_all m A)).xors = (add_all m A).xors := rfl
    rw [hnil, List.nil_append, hxs] at s2
    have s12 := sel_trans _ _ _ _ _ _ s1 s2
    rw [add_all_buffer _ hwf, a1, a2] at s12
    rw [add_all_buffer _ hwf, c1, c2] at s3
    exact sel_hash_unique _ _ _ _ _ _ (fun e h => by simpa using h) (fun e h => by simpa using h)
      s12 s3
  · rw [getD_beyond _ _ _ (by rw [finish_best_length, b1, finish_best_length, a1]; omega),
      getD_beyond _ _ _ (by rw [finish_best_length, c1]; omega)]

/-- Instance of C9 on `sample` with `A = [(4, 1)]`, `B = [(7, 2), (1, 3)]`. -/
theorem finish_incremental_witness :
    ((finish (add_all (finish (add_all sample [(4, 1)])) [(7, 2), (1, 3)])).best.getD 0
        default).hash
      = ((finish (add_all sample ([(4, 1)] ++ [(7, 2), (1, 3)]))).best.getD 0 default).hash :=
  finish_incremental sample (by decide) [(4, 1)] [(7, 2), (1, 3)] 0

end MinHash

namespace Hash

/-- C10. K-mer width invariant: for `1 ≤ k ≤ 32`, `hash_next(ch, hash, k)` is
below `4^k` for every character and every old hash; `hash_of(s, k)` is below
`4^k` for every string of length `k`; and every value `for_all_hashes_do`
passes to its callback is below `4^k`, that is, has no bit set at or above
position `2k`. -/
theorem kmer_width (k : Nat) (h1 : 1 ≤ k) (h32 : k ≤ 32) :
    (∀ ch hash, hash_next ch hash k < 4 ^ k) ∧
    (∀ s : List Nat, s.length = k → hash_of s k < 4 ^ k) ∧
    (∀ (σ : Type) (s : List Nat) (lambda : σ → Nat → σ × Bool) (st : σ),
      ∀ v ∈ callback_values s k lambda st,
        v < 4 ^ k ∧ ∀ j, 2 * k ≤ j → v.testBit j = false) := by
  refine ⟨fun ch hash => hash_next_lt ch hash k h1 h32, fun s _ => hash_of_lt s k h32, ?_⟩
  intro σ s lambda st v hv
  obtain ⟨m, _, he, _⟩ := callback_values_take s k lambda st h1 h32
  rw [he] at hv
  obtain ⟨j, rfl⟩ := mem_windows s k v (List.mem_of_mem_take hv)
  have hlt := hash_of_lt (s.drop j) k h32
  exact ⟨hlt, fun j hj => testBit_above _ k j hlt hj⟩

/-- Instance of C10 at `k = 2`: a slide from an old hash with all 64 bits set. -/
theorem kmer_width_witness : hash_next 71 (2 ^ 64 - 1) 2 < 4 ^ 2 :=
  (kmer_width 2 (by decide) (by decide)).1 71 (2 ^ 64 - 1)

end Hash

/-- C11. The fingerprint `hash_of(k)` of get_profile.cpp is the 64-bit FNV-1
hash of the 8 bytes of `k`, least-significant byte first: from the offset
basis 14695981039346656037 = 0xcbf29ce484222325 each byte `b` updates
`acc := ((acc * 1099511628211) mod 2^64) XOR b`, the prime being
0x100000001b3. It is a 64-bit value, and it is not FNV-1a. -/
theorem fingerprint_is_fnv1 (k : Nat) :
    hash_of k = fnv1_spec (le_bytes k) ∧ hash_of k < 2 ^ 64 ∧
    (0xcbf29ce484222325 : Nat) = 14695981039346656037 ∧
    (0x100000001b3 : Nat) = 1099511628211 ∧
    ∃ k2, k2 < 2 ^ 64 ∧ hash_of k2 ≠ fnv1a_spec (le_bytes k2) :=
  ⟨hash_of_eq_fnv1_spec k, hash_of_eq_fnv1_spec k ▸ fnv1_spec_lt k, by decide, by decide,
    1, by decide, by decide⟩

/-- C12. For `1 ≤ k ≤ 32` the pairs that `update_min_hash` appends to the
sketch are, in window order `i = 0 .. |s| - k`, exactly `(hash_of(c_i), c_i)`
with `c_i = min_hash_variant(hash_of(&s[i], k), k)`: nothing else of the
sketch changes, and both storage vectors grow by these values. -/
theorem update_min_hash_pairs (min_hash_variant : Nat → Nat → Nat) (min_hash : MinHash)
    (s : List Nat) (k : Nat) (h1 : 1 ≤ k) (h32 : k ≤ 32) :
    update_min_hash min_hash_variant min_hash s k
      = min_hash.add_all ((List.range (if s.length < k then 0 else s.length - k + 1)).map
          (fun i => (hash_of (min_hash_variant (Hash.hash_of (s.drop i) k) k),
            min_hash_variant (Hash.hash_of (s.drop i) k) k))) ∧
    (update_min_hash min_hash_variant min_hash s k).storage_hash
      = min_hash.storage_hash ++
        (List.range (if s.length < k then 0 else s.length - k + 1)).map
          (fun i => hash_of (min_hash_variant (Hash.hash_of (s.drop i) k) k)) ∧
    (update_min_hash min_hash_variant min_hash s k).storage_kmer
      = min_hash.storage_kmer ++
        (List.range (if s.length < k then 0 else s.length - k + 1)).map
          (fun i => min_hash_variant (Hash.hash_of (s.drop i) k) k) := by
  have h := update_min_hash_windows min_hash_variant min_hash s k h1 h32
  rw [Hash.windows_eq_range, List.map_map] at h
  refine ⟨h, ?_, ?_⟩
  · rw [h, (MinHash.add_all_fields _ _).2.2.1, List.map_map]
    rfl
  · rw [h, (MinHash.add_all_fields _ _).2.2.2, List.map_map]
    rfl

/-- Instance of C12: "ACGTA" with `k = 4` and the identity in place of
`min_hash_variant` appends the fingerprints of the two windows. -/
theorem update_min_hash_pairs_witness :
    (update_min_hash (fun h _ => h) (MinHash.create (fun _ => 0) 1)
        (Hash.bytes "ACGTA") 4).storage_kmer
      = [Hash.hash_of (Hash.bytes "ACGT") 4, Hash.hash_of (Hash.bytes "CGTA") 4] :=
  (update_min_hash_pairs (fun h _ => h) (MinHash.create (fun _ => 0) 1) (Hash.bytes "ACGTA") 4
    (by decide) (by decide)).2.2.trans (by decide)

namespace MinHash

/-- C13. For every count `n`, zero included, `MinHash(n)` has exactly `n`
slots, each `(UINT64_MAX, 0)`, exactly `n` masks, and an empty accumulation
buffer. -/
theorem create_state (draws : Nat → Nat) (n : Nat) :
    (create draws n).best = List.replicate n ⟨UINT64_MAX, 0⟩ ∧
    (create draws n).best.length = n ∧ (create draws n).xors.length = n ∧
    (create draws n).storage_hash = [] ∧ (create draws n).storage_kmer = [] ∧
    (create draws n).buffer = [] := by
  refine ⟨rfl, ?_, ?_, rfl, rfl, rfl⟩
  · simp [create]
  · simp [create]

/-- C14. Neither `add` nor `finish` changes the masks or the number of
slots; `add` leaves every slot unchanged and appends exactly the given
fingerprint and k-mer at the end of the two storage vectors, so the given
pair at the end of the buffer, the earlier entries staying as they are. -/
theorem add_finish_frame (m : MinHash) (hash kmer : Nat) :
    (m.add hash kmer).xors = m.xors ∧ (m.add hash kmer).best = m.best ∧
    (m.add hash kmer).storage_hash = m.storage_hash ++ [hash] ∧
    (m.add hash kmer).storage_kmer = m.storage_kmer ++ [kmer] ∧
    (m.WF → (m.add hash kmer).buffer = m.buffer ++ [(hash, kmer)]) ∧
    m.finish.xors = m.xors ∧ m.finish.best.length = m.best.length := by
  refine ⟨rfl, rfl, rfl, rfl, fun hwf => ?_, rfl, finish_best_length m⟩
  exact add_all_buffer m hwf [(hash, kmer)]

/-- C15. After `finish` both storage vectors are empty, and `finish` is
idempotent: a second `finish` right after the first changes no slot, no
mask and not the buffer. -/
theorem finish_idempotent (m : MinHash) :
    m.finish.storage_hash = [] ∧ m.finish.storage_kmer = [] ∧ m.finish.buffer = [] ∧
    m.finish.finish = m.finish :=
  ⟨rfl, rfl, rfl, finish_finish m⟩

end MinHash

/-- C16. For a sketch with `N` slots `save` writes `N` followed by exactly
`N` k-mer values, the value at position `i + 1` being the k-mer of slot `i`;
the ranking values are not written: sketches with the same k-mers are
saved alike. -/
theorem save_layout (m : MinHash) :
    save m = m.best.length :: m.best.map Best.kmer ∧
    (save m).length = m.best.length + 1 ∧
    (∀ i, i < m.best.length → (save m)[i + 1]? = some (m.best.getD i default).kmer) ∧
    (∀ m2 : MinHash, m2.best.map Best.kmer = m.best.map Best.kmer → save m2 = save m) := by
  refine ⟨save_eq m, by rw [save_eq]; simp, fun i hi => ?_, fun m2 h => ?_⟩
  · rw [save_eq]
    simp [List.getD_eq_getElem?_getD, List.getElem?_eq_getElem hi]
  · rw [save_eq, save_eq, h]
    have := congrArg List.length h
    simp only [List.length_map] at this
    rw [this]

/-- C17. Determinism. The masks of the sketch of a run are those fixed by
`min_hash_count` and the stream of the generator seeded with 0, whatever the
sequences and `kmer_len`; and for the same sequences, `kmer_len` and
`min_hash_count`, two runs write the same profile whatever the orders in
which their parallel loops finish the slots. -/
theorem profile_deterministic (draws : Nat → Nat) (min_hash_variant : Nat → Nat → Nat)
    (sequences : List (List Nat)) (k count : Nat) (order1 order2 : List Nat)
    (h1 : order1.Perm (List.range count)) (h2 : order2.Perm (List.range count)) :
    (get_profile_sketch draws min_hash_variant order1 sequences k count).xors
      = (List.range count).map
          (fun i => ((draws (2 * i) <<< 32) % 2 ^ 64) ||| draws (2 * i + 1)) ∧
    get_profile_in_order draws min_hash_variant order1 sequences k count
      = get_profile_in_order draws min_hash_variant order2 sequences k count ∧
    get_profile_in_order draws min_hash_variant order1 sequences k count
      = get_profile draws min_hash_variant sequences k count := by
  refine ⟨?_, ?_, ?_⟩
  · exact (foldl_update_min_hash_frame min_hash_variant k sequences _).2
  · unfold get_profile_in_order
    rw [get_profile_in_order_eq _ _ order1 _ _ _ h1, get_profile_in_order_eq _ _ order2 _ _ _ h2]
  · unfold get_profile get_profile_in_order
    rw [get_profile_in_order_eq _ _ order1 _ _ _ h1]

/-- Instance of C17: three slots finished in the orders 2, 0, 1 and 1, 2, 0. -/
theorem profile_deterministic_witness :
    get_profile_in_order (fun n => n + 1) (fun h _ => h) [2, 0, 1] [Hash.bytes "ACGTACGTAC"] 4 3
      = get_profile_in_order (fun n => n + 1) (fun h _ => h) [1, 2, 0]
          [Hash.bytes "ACGTACGTAC"] 4 3 :=
  (profile_deterministic (fun n => n + 1) (fun h _ => h) [Hash.bytes "ACGTACGTAC"] 4 3
    [2, 0, 1] [1, 2, 0] (by decide) (by decide)).2.1

namespace SraSearch

/-- C18. The comparator `FragmentId_Less` is a strict weak ordering: it
returns true exactly when the parsed triple of `a` precedes that of `b`
lexicographically by accession string, then read number, then fragment
number; it is irreflexive and transitive, and its incomparability relation
is transitive. -/
theorem fragment_id_less_strict_weak (strtol : List Nat → Int) :
    (∀ a b, FragmentId_Less strtol a b = true ↔
      (Parse strtol a).1 < (Parse strtol b).1 ∨
        ((Parse strtol a).1 = (Parse strtol b).1 ∧
          ((Parse strtol a).2.2 < (Parse strtol b).2.2 ∨
            ((Parse strtol a).2.2 = (Parse strtol b).2.2 ∧
              (Parse strtol a).2.1 < (Parse strtol b).2.1)))) ∧
    (∀ a, FragmentId_Less strtol a a = false) ∧
    (∀ a b c, FragmentId_Less strtol a b = true → FragmentId_Less strtol b c = true →
      FragmentId_Less strtol a c = true) ∧
    (∀ a b c, (FragmentId_Less strtol a b = false ∧ FragmentId_Less strtol b a = false) →
      (FragmentId_Less strtol b c = false ∧ FragmentId_Less strtol c b = false) →
      (FragmentId_Less strtol a c = false ∧ FragmentId_Less strtol c a = false)) := by
  refine ⟨less_iff_lex strtol, fun a => ?_, fun a b c hab hbc => ?_, fun a b c hab hbc => ?_⟩
  · rw [less_false_iff]
    exact lt_irrefl _
  · rw [less_iff_key] at hab hbc ⊢
    exact lt_trans hab hbc
  · rw [incomparable_iff] at hab hbc ⊢
    exact hab.trans hbc

/-- C19 fails on the code: the `-S` branch of `main` rejects the score 0,
which the help text documents as valid, and stores the score 101, which is
outside the documented range `0..100`; the branch accepts exactly the
arguments that parse completely to a positive value without a range error. -/
theorem score_option_range_mismatch :
    score_option strtoi32_digits (Hash.bytes "0") = Except.error Error.invalid_argument ∧
    exit_code_of Error.invalid_argument = 1 ∧
    score_option strtoi32_digits (Hash.bytes "101") = Except.ok 101 ∧
    ∀ (strtoi32 : List Nat → Int × Nat × Bool) (argv_i : List Nat),
      (∃ v, score_option strtoi32 argv_i = Except.ok v) ↔
        ((strtoi32 argv_i).2.1 = 0 ∧ 0 < (strtoi32 argv_i).1 ∧
          (strtoi32 argv_i).2.2 = false) :=
  ⟨rfl, rfl, rfl, score_option_ok_iff⟩

end SraSearch

namespace Hash

/-- C20. For `1 ≤ k ≤ 32`, every character and every old hash, the slide
`hash_next(ch, h, k)` of the code, which masks `h` to its low `2k - 2` bits
and then shifts and ORs, equals the specified
`(((h << 2) mod 2^64) AND (4^k - 1)) OR ((ch >> 1) AND 3)`. -/
theorem hash_next_eq_slide_spec (ch h k : Nat) (h1 : 1 ≤ k) (h32 : k ≤ 32) :
    hash_next ch h k = slide_spec ch h k := by
  rw [hash_next_eq ch h k h1 h32, slide_spec_eq ch h k h1 h32]

/-- Instance of C20 at `k = 32` with an old hash of 64 set bits. -/
theorem hash_next_eq_slide_spec_witness :
    hash_next 84 (2 ^ 64 - 1) 32 = slide_spec 84 (2 ^ 64 - 1) 32 :=
  hash_next_eq_slide_spec 84 (2 ^ 64 - 1) 32 (by decide) (by decide)

end Hash

namespace Hash

/-- C21. Encode undoes decode: for `k ≤ 32` and every value `h < 4^k`,
`hash_of(str_from_hash(h, k), k) = h`, the decoded string having `k` letters
of `{A, C, G, T}`; encoding and decoding agree on every 2-bit code; and
`hash_of` is a bijection between the strings of length `k` over
`{A, C, G, T}` and the values below `4^k`, with inverse `str_from_hash`. -/
theorem hash_of_str_from_hash (k : Nat) (h32 : k ≤ 32) :
    (∀ h, h < 4 ^ k →
      (str_from_hash h k).length = k ∧ (∀ c ∈ str_from_hash h k, c ∈ bytes "ACGT") ∧
        hash_of (str_from_hash h k) k = h) ∧
    (∀ d, d < 4 → update_hash (hash_char d) 0 = d) ∧
    (∀ s : List Nat, s.length = k → (∀ c ∈ s, c ∈ bytes "ACGT") →
      hash_of s k < 4 ^ k ∧ str_from_hash (hash_of s k) k = s) ∧
    Set.BijOn (fun s => hash_of s k) {s | s.length = k ∧ ∀ c ∈ s, c ∈ bytes "ACGT"}
      {h | h < 4 ^ k} := by
  refine ⟨fun h hh => str_from_hash_dec k h h32 hh, ?_,
    fun s hlen hs => str_from_hash_enc k h32 s hlen hs, ?_⟩
  · intro d hd
    rw [update_hash_eq, code_hash_char d hd]
    omega
  · have hinv : Set.InvOn (fun h => str_from_hash h k) (fun s => hash_of s k)
        {s | s.length = k ∧ ∀ c ∈ s, c ∈ bytes "ACGT"} {h | h < 4 ^ k} :=
      ⟨fun s hs => (str_from_hash_enc k h32 s hs.1 hs.2).2,
        fun h hh => (str_from_hash_dec k h h32 hh).2.2⟩
    exact hinv.bijOn (fun s hs => (str_from_hash_enc k h32 s hs.1 hs.2).1)
      (fun h hh => ⟨(str_from_hash_dec k h h32 hh).1, (str_from_hash_dec k h h32 hh).2.1⟩)

/-- Instance of C21 at `k = 3`: the value 27 decodes to "CTG" and encodes
back to 27. -/
theorem hash_of_str_from_hash_witness :
    str_from_hash 27 3 = bytes "CTG" ∧ hash_of (str_from_hash 27 3) 3 = 27 :=
  ⟨by decide, ((hash_of_str_from_hash 3 (by decide)).1 27 (by decide)).2.2⟩

/-- C23. Early termination: for `1 ≤ k ≤ 32`, `k ≤ |s|` and `j ≤ |s| - k`, a
callback that returns true on its first `j` calls and false on call number
`j + 1` is invoked by `for_all_hashes_do` exactly `j + 1` times, on the k-mers
of the windows `0 .. j` in order and on no later window; its state at
the end is the one these `j + 1` calls leave. -/
theorem early_termination {σ : Type} (s : List Nat) (k : Nat) (h1 : 1 ≤ k) (h32 : k ≤ 32)
    (hk : k ≤ s.length) (lambda : σ → Nat → σ × Bool) (st : σ) (j : Nat)
    (hj : j ≤ s.length - k)
    (hcont : ∀ i, i < j →
      (lambda (state_after lambda ((List.range i).map (fun n => hash_of (s.drop n) k)) st)
        (hash_of (s.drop i) k)).2 = true)
    (hstop :
      (lambda (state_after lambda ((List.range j).map (fun n => hash_of (s.drop n) k)) st)
        (hash_of (s.drop j) k)).2 = false) :
    callback_values s k lambda st = (List.range (j + 1)).map (fun n => hash_of (s.drop n) k) ∧
    (callback_values s k lambda st).length = j + 1 ∧
    for_all_hashes_do s k lambda st
      = state_after lambda ((List.range (j + 1)).map (fun n => hash_of (s.drop n) k)) st := by
  have hrun := run_until_stops lambda j (windows s k) st []
    (by rw [windows_length s k hk]; omega)
    (fun i hi => by
      rw [windows_take s k i hk (by omega), windows_getD s k i hk (by omega)]
      exact hcont i hi)
    (by
      rw [windows_take s k j hk (by omega), windows_getD s k j hk hj]
      exact hstop)
  rw [windows_take s k (j + 1) hk (by omega), List.nil_append] at hrun
  have hval : callback_values s k lambda st
      = (List.range (j + 1)).map (fun n => hash_of (s.drop n) k) := by
    unfold callback_values
    rw [for_all_hashes_do_eq_run_until s k _ _ h1 h32, hrun]
  refine ⟨hval, by rw [hval]; simp, ?_⟩
  rw [← recording_fst, for_all_hashes_do_eq_run_until s k _ _ h1 h32, hrun]

/-- Instance of C23: on "ACGTACGTAC" with `k = 4` a callback that counts its
calls and stops at the third is invoked three times. -/
theorem early_termination_witness :
    (callback_values (bytes "ACGTACGTAC") 4 (fun (n : Nat) _ => (n + 1, decide (n < 2)))
      0).length = 3 :=
  (early_termination (bytes "ACGTACGTAC") 4 (by decide) (by decide) (by decide)
    (fun (n : Nat) _ => (n + 1, decide (n < 2))) 0 2 (by decide) (by decide) (by decide)).2.1

/-- C26. The encoder reads only bits 1 and 2 of a character and is
case-insensitive: `update_hash(ch, h) = ((h << 2) mod 2^64) OR ((ch >> 1) AND 3)`
for every `ch` and `h`; so for a string `s` of length `k ≤ 32` over
`{a, c, g, t, A, C, G, T}`, `hash_of(s, k)` is `hash_of` of the upper-cased
string and `str_from_hash(hash_of(s, k), k)` is `s` upper-cased. -/
theorem update_hash_case_insensitive (k : Nat) (h32 : k ≤ 32) :
    (∀ ch h, update_hash ch h = ((h <<< 2) % 2 ^ 64) ||| ((ch >>> 1) &&& 3)) ∧
    (∀ ch ch2 h, (ch >>> 1) &&& 3 = (ch2 >>> 1) &&& 3 → update_hash ch h = update_hash ch2 h) ∧
    (∀ s : List Nat, s.length = k → (∀ c ∈ s, c ∈ bytes "acgtACGT") →
      hash_of s k = hash_of (s.map toupper) k ∧
        str_from_hash (hash_of s k) k = s.map toupper) := by
  refine ⟨update_hash_bits, fun ch ch2 h hc => ?_, fun s hlen hs => hash_of_toupper k h32 s hlen hs⟩
  rw [update_hash_bits, update_hash_bits, hc]

/-- Instance of C26: "gAttaCa" decodes to "GATTACA". -/
theorem update_hash_case_insensitive_witness :
    str_from_hash (hash_of (bytes "gAttaCa") 7) 7 = bytes "GATTACA" :=
  (((update_hash_case_insensitive 7 (by decide)).2.2 (bytes "gAttaCa") (by decide)
    (by decide)).2).trans (by decide)

end Hash

namespace MinHash

/-- C22. Slot independence: two sketch states that agree on the prior value
of slot `i`, on the mask `xors[i]` and on the accumulation buffer are given
the same value in slot `i` by `finish`, whatever their other slots, masks
and slot counts; and finishing the slots in any order, or part by part for
any partition of the slots, yields the same sketch as `finish`. -/
theorem slot_independence (m1 m2 : MinHash) (i : Nat) (hi1 : i < m1.best.length)
    (hi2 : i < m2.best.length) (hb : m1.best.getD i default = m2.best.getD i default)
    (hx : m1.xors.getD i 0 = m2.xors.getD i 0) (hs : m1.storage_hash = m2.storage_hash)
    (hk : m1.storage_kmer = m2.storage_kmer) :
    m1.finish.best.getD i default = m2.finish.best.getD i default ∧
    (∀ order : List Nat, order.Perm (List.range m1.best.length) →
      m1.finish_in_order order = m1.finish) ∧
    (∀ parts : List (List Nat), parts.flatten.Perm (List.range m1.best.length) →
      m1.finish_in_order parts.flatten = m1.finish) :=
  ⟨finish_slot_local m1 m2 i hi1 hi2 hb hx hs hk,
    fun order hp => finish_in_order_eq m1 order hp,
    fun parts hp => finish_in_order_eq m1 parts.flatten hp⟩

/-- Instance of C22: slot 1 of `sample` and slot 1 of a three-slot sketch
with other neighbours. -/
theorem slot_independence_witness :
    sample.finish.best.getD 1 default
      = (finish ⟨[⟨7, 7⟩, ⟨3, 9⟩, ⟨1, 1⟩], [9, 5, 9, 9, 5], [1, 2, 3, 4, 5],
          [5, 6, 7]⟩).best.getD 1 default :=
  (slot_independence sample
    ⟨[⟨7, 7⟩, ⟨3, 9⟩, ⟨1, 1⟩], [9, 5, 9, 9, 5], [1, 2, 3, 4, 5], [5, 6, 7]⟩ 1
    (by decide) (by decide) (by decide) (by decide) (by decide) (by decide)).1

/-- C24. Conditional scan equivalence: when any two buffer entries with equal
fingerprints carry equal k-mers, the batch-of-4 scan of `finish` leaves every
slot with the same (ranking value, k-mer) pair as the naive in-order scan
with strict-less-than replacement. -/
theorem conditional_scan_equivalence (m : MinHash) (hwf : m.WF)
    (hf : ∀ e ∈ m.buffer, ∀ d ∈ m.buffer, e.1 = d.1 → e.2 = d.2) :
    (∀ i, i < m.best.length →
      m.finish.best.getD i default
        = naive_scan m.buffer (m.xors.getD i 0) (m.best.getD i default)) ∧
    m.finish.best = (List.range m.best.length).map
      (fun i => naive_scan m.buffer (m.xors.getD i 0) (m.best.getD i default)) := by
  have hslot : ∀ i, i < m.best.length →
      m.finish.best.getD i default
        = naive_scan m.buffer (m.xors.getD i 0) (m.best.getD i default) := fun i hi =>
    sel_unique _ _ _ _ _ _ (fun _ h => h) (fun _ h => h) hf (finish_sel m hwf i hi)
      (naive_scan_sel _ _ _)
  refine ⟨hslot, ?_⟩
  apply ext_getD default
  · rw [finish_best_length]
    simp
  · intro i hi
    rw [finish_best_length] at hi
    rw [hslot i hi]
    simp [List.getD_eq_getElem?_getD, List.getElem?_range, hi]

/-- Instance of C24: a five-entry buffer in which the fingerprint 5 occurs
twice with the same k-mer. -/
theorem conditional_scan_equivalence_witness :
    (finish ⟨[{}, ⟨3, 9⟩], [9, 5, 8, 7, 5], [1, 2, 3, 4, 2], [0, 6]⟩).best.getD 0 default
      = naive_scan [(9, 1), (5, 2), (8, 3), (7, 4), (5, 2)] 0 {} :=
  (conditional_scan_equivalence ⟨[{}, ⟨3, 9⟩], [9, 5, 8, 7, 5], [1, 2, 3, 4, 2], [0, 6]⟩
    (by decide) (by decide)).1 0 (by decide)

/-- C25. Sketch-size prefix property: for `n ≤ m` the mask of slot `i < n`
is the same in `MinHash(n)` and `MinHash(m)`, and the `n` slots obtained by
accumulating a buffer into a fresh `MinHash(n)` and finishing are the first
`n` slots obtained from a fresh `MinHash(m)` on the same buffer. -/
theorem sketch_size_take (draws : Nat → Nat) (n m : Nat) (hnm : n ≤ m)
    (buf : List (Nat × Nat)) :
    (∀ i, i < n → (create draws n).xors.getD i 0 = (create draws m).xors.getD i 0) ∧
    (finish (add_all (create draws n) buf)).best
      = ((finish (add_all (create draws m) buf)).best).take n :=
  ⟨fun i hi => by
      rw [(create_fields draws n i hi).2.1, (create_fields draws m i (by omega)).2.1],
    finish_create_take draws n m hnm buf⟩

/-- Instance of C25 with two and five slots. -/
theorem sketch_size_take_witness :
    (finish (add_all (create (fun j => 3 * j + 1) 2) [(9, 1), (5, 2), (8, 3)])).best
      = ((finish (add_all (create (fun j => 3 * j + 1) 5) [(9, 1), (5, 2), (8, 3)])).best).take
          2 :=
  (sketch_size_take (fun j => 3 * j + 1) 2 5 (by decide) [(9, 1), (5, 2), (8, 3)]).2

end MinHash

end NgsTools
